import Mathlib

/-!
Verification development for `mef_tools/io.py`.

The Python floats carried by the sample buffers are modelled as exact
rationals (`ℚ`); a NaN sample is modelled as `none` in `Option ℚ`.
Machine integers are modelled as `ℤ`/`ℕ` with explicit wrap-around
(`% 2^32`) where the source casts to `int32`.  NumPy/pandas primitives
(`np.diff`, `np.where`, `np.round`, `DataFrame.loc`, `sort_values`, …)
are translated literally, statement by statement, in the definitions
below; each definition names the construct of the source it embeds.
-/

namespace MefTools

/-! ### Elementary numeric primitives -/

/-- `np.iinfo(np.int32).min`. -/
def int32_min : ℤ := -2147483648

/-- `np.iinfo(np.int32).max`. -/
def int32_max : ℤ := 2147483647

/-- Truncation toward zero, the semantics of Python `int(x)` and of a
NumPy cast from a float to an integer dtype. -/
def ratTrunc (q : ℚ) : ℤ := if 0 ≤ q then ⌊q⌋ else ⌈q⌉

/-- Wrap-around of an integer into the `int32` range, the semantics of the
cast performed when a value is stored into an `np.int32` array. -/
def int32cast (z : ℤ) : ℤ := (z + 2147483648) % 4294967296 - 2147483648

/-- Round half to even on the integer grid: the rounding used by
`np.round`/`np.around`. -/
def roundHalfEven (q : ℚ) : ℤ :=
  if q - ⌊q⌋ < 1/2 then ⌊q⌋
  else if 1/2 < q - ⌊q⌋ then ⌊q⌋ + 1
  else if 2 ∣ ⌊q⌋ then ⌊q⌋ else ⌊q⌋ + 1

/-- `np.round(x, decimals=d)`: scale by `10^d`, round half to even, scale
back.  `d` may be negative (NumPy allows negative `decimals`). -/
def np_round (x : ℚ) (d : ℤ) : ℚ := (roundHalfEven (x * 10 ^ d) : ℚ) / 10 ^ d

/-! ### QuantizationEngine: `check_int32_dynamic_range` (io.py:911-940) -/

/-- `check_int32_dynamic_range(x_min, x_max, alpha)` (io.py:936-940):
returns `False` only when the scaled minimum is below the `int32` minimum
AND the scaled maximum is above the `int32` maximum. -/
def check_int32_dynamic_range (x_min x_max alpha : ℚ) : Bool :=
  if x_min * alpha < (int32_min : ℚ) ∧ (int32_max : ℚ) < x_max * alpha then
    false
  else
    true

/-! ### QuantizationEngine: `infer_conversion_factor` (io.py:943-984) -/

/-- `np.diff` over a buffer with NaNs: a difference touching a NaN is NaN. -/
def npdiffOpt (l : List (Option ℚ)) : List (Option ℚ) :=
  List.zipWith (fun a b =>
    match a, b with
    | some x, some y => some (y - x)
    | _, _ => none) l l.tail

/-- `np.nanmean`: mean of the non-NaN entries, NaN (`none`) if there are
none. -/
def nanmean (l : List (Option ℚ)) : Option ℚ :=
  let vals := l.filterMap id
  if vals.length = 0 then none else some (vals.sum / (vals.length : ℚ))

/-- `np.nanmin`: minimum of the non-NaN entries, NaN (`none`) if there are
none. -/
def nanmin (l : List (Option ℚ)) : Option ℚ := (l.filterMap id).min?

/-- `np.nanmax`: maximum of the non-NaN entries, NaN (`none`) if there are
none. -/
def nanmax (l : List (Option ℚ)) : Option ℚ := (l.filterMap id).max?

def nanmean_nonneg {l : List (Option ℚ)} (hl : ∀ x ∈ l.filterMap id, 0 ≤ x)
    {m : ℚ} (h : nanmean l = some m) : 0 ≤ m := by
  unfold nanmean at h
  by_cases hz : (l.filterMap id).length = 0
  · simp [hz] at h
  · simp only [hz, if_false, Option.some.injEq] at h
    subst h
    apply div_nonneg
    · exact List.sum_nonneg hl
    · positivity

def nanmean_abs_nonneg {l : List (Option ℚ)} {m : ℚ}
    (h : nanmean (l.map (Option.map (fun d => |d|))) = some m) : 0 ≤ m := by
  refine nanmean_nonneg (fun x hx => ?_) h
  rw [List.filterMap_map] at hx
  obtain ⟨a, _, ha⟩ := List.mem_filterMap.mp hx
  cases a with
  | none => simp at ha
  | some y =>
    simp only [Function.comp, Option.map_some', id, Option.some.injEq] at ha
    rw [← ha]
    exact abs_nonneg y

/-- The first loop of `infer_conversion_factor` (io.py:973-975):
`while (mean < 1000) & (mean != 0): precision += 1; mean *= 10`.
The mean of absolute differences is nonnegative, which the proof argument
records; the loop terminates because the mean grows tenfold each step. -/
def scale_up (p : ℕ) (mean : ℚ) (hm : 0 ≤ mean) : ℕ :=
  if h : mean < 1000 ∧ mean ≠ 0 then
    scale_up (p + 1) (mean * 10) (by positivity)
  else p
  termination_by (⌈(1000 : ℚ) / mean⌉).toNat
  decreasing_by
    have hm0 : 0 < mean := lt_of_le_of_ne hm (Ne.symm h.2)
    have hc1 : (1 : ℚ) < 1000 / mean := (one_lt_div hm0).mpr h.1
    have hc2 : (2 : ℤ) ≤ ⌈(1000 : ℚ) / mean⌉ := by
      have h1 : (1 : ℤ) < ⌈(1000 : ℚ) / mean⌉ := by
        exact_mod_cast lt_of_lt_of_le hc1 (Int.le_ceil _)
      omega
    have hle : (1000 : ℚ) / (mean * 10) ≤ ((⌈(1000 : ℚ) / mean⌉ : ℚ) - 1) := by
      have hstep : (1000 : ℚ) / (mean * 10) = (1000 / mean) / 10 := by
        rw [div_div]
      have hup : (1000 / mean : ℚ) / 10 ≤ (⌈(1000 : ℚ) / mean⌉ : ℚ) / 10 := by
        gcongr
        exact Int.le_ceil _
      have h2q : (2 : ℚ) ≤ (⌈(1000 : ℚ) / mean⌉ : ℚ) := by exact_mod_cast hc2
      rw [hstep]
      refine le_trans hup ?_
      linarith
    have hceil : ⌈(1000 : ℚ) / (mean * 10)⌉ ≤ ⌈(1000 : ℚ) / mean⌉ - 1 := by
      rw [show ((⌈(1000 : ℚ) / mean⌉ : ℚ) - 1) =
            ((⌈(1000 : ℚ) / mean⌉ - 1 : ℤ) : ℚ) by push_cast; ring] at hle
      exact Int.ceil_le.mpr hle
    omega

/-- The second loop of `infer_conversion_factor` (io.py:980-983):
`while (not check_int32_dynamic_range(min, max, alpha)) & (precision != 0):
precision -= 1; alpha = 10 ** precision`. -/
def scale_down (data_min data_max : ℚ) : ℕ → ℕ
  | 0 => 0
  | p + 1 =>
    if check_int32_dynamic_range data_min data_max (10 ^ (p + 1)) then p + 1
    else scale_down data_min data_max p

/-- `infer_conversion_factor(data)` (io.py:943-984).  The first loop never
runs when the mean of absolute differences is NaN (every comparison with
NaN is false); likewise the second loop exits immediately when the
buffer's min/max are NaN. -/
def infer_conversion_factor (data : List (Option ℚ)) : ℕ :=
  let mean_digg_abs := nanmean ((npdiffOpt data).map (Option.map (fun d => |d|)))
  let p1 : ℕ :=
    match h : mean_digg_abs with
    | none => 0
    | some m => scale_up 0 m (nanmean_abs_nonneg h)
  match nanmin data, nanmax data with
  | some data_min, some data_max => scale_down data_min data_max p1
  | _, _ => p1

/-! ### QuantizationEngine: `convert_data_to_int32` (io.py:987-1035) -/

/-- `convert_data_to_int32(data, precision)` (io.py:987-1035).  The
`precision` parameter is a Python object that may hold a non-integer
number; it is modelled as `Option ℚ` (`none` = not given, inferred).  The
source's `(precision < 0) | (not isinstance(precision, int))` test is
modelled as `precision < 0 ∨ precision.den ≠ 1` (a non-integral value).
NaN samples are zero-filled (on a copy, see
`convert_data_to_int32_with_buffer`), then the data is rounded to
`precision` decimals and stored into an `int32` array (the store
truncates toward zero and wraps into the `int32` range). -/
def convert_data_to_int32 (data : List (Option ℚ)) (precision : Option ℚ) : List ℤ :=
  let precision : ℚ :=
    match precision with
    | none => (infer_conversion_factor data : ℚ)
    | some p => p
  let p : ℕ := if precision < 0 ∨ precision.den ≠ 1 then 0 else precision.num.toNat
  let zeroed := data.map (fun x => x.getD 0)
  let deciround := zeroed.map (fun x => np_round x (p : ℤ))
  deciround.map (fun y => int32cast (ratTrunc ((10 ^ p : ℚ) * y)))

/-- The buffer-level view of `convert_data_to_int32`: the source copies the
input (`data = data.copy()`, io.py:1030) and zero-fills NaNs only on that
copy, so the caller's array is returned unchanged (second component). -/
def convert_data_to_int32_with_buffer (data : List (Option ℚ)) (precision : Option ℚ) :
    List ℤ × List (Option ℚ) :=
  let local_copy := data
  let result := convert_data_to_int32 local_copy precision
  (result, data)

/-! ### QuantizationEngine: `check_data_integrity` (io.py:1125-1153) -/

/-- `np.allclose(a, b, atol=atol)` with NumPy's default relative tolerance
`rtol = 1e-5`: elementwise `|a - b| ≤ atol + rtol * |b|`. -/
def npallclose (a b : List ℚ) (atol : ℚ) : Bool :=
  decide (∀ pr ∈ a.zip b, |pr.1 - pr.2| ≤ atol + 1/100000 * |pr.2|)

/-- `check_data_integrity(original_data, converted_data, precision)`
(io.py:1125-1153): rescale the converted data by `0.1 ** precision`, drop
the NaN positions of the original, and compare with
`np.allclose(..., atol=0.1 ** (precision - 1))`. -/
def check_data_integrity (original : List (Option ℚ)) (converted : List ℤ)
    (precision : ℤ) : Bool :=
  let converted_float := converted.map (fun z => (1/10 : ℚ) ^ precision * (Int.cast z : ℚ))
  let pairs := (original.zip converted_float).filterMap
    (fun pr =>
      match pr.1 with
      | some x => some (pr.2, x)
      | none => none)
  npallclose (pairs.map Prod.fst) (pairs.map Prod.snd) ((1/10 : ℚ) ^ (precision - 1))

/-! ### GapIntervalMerger: `find_intervals_binary_vector` (io.py:1038-1122) -/

/-- A binary vector as `int` values, the arithmetic view NumPy takes of the
boolean validity vector. -/
def toBin (v : List Bool) : List ℤ := v.map (fun b => if b then 1 else 0)

/-- `np.diff`: consecutive differences `l[i+1] - l[i]`. -/
def npdiff (l : List ℤ) : List ℤ := List.zipWith (fun a b => b - a) l l.tail

/-- `np.where(l == c)[0]`: the ascending list of indices whose entry
equals `c`. -/
def whereEq (l : List ℤ) (c : ℤ) : List ℕ :=
  (List.range l.length).filter (fun i => l.getD i 0 = c)

/-- Lines io.py:1078-1087: pad the binary vector with a zero on both ends,
diff, and pair the rising edges (`diff == 1`, run starts) with the falling
edges (`diff == -1`, run stops, exclusive). -/
def findRuns (v : List Bool) : List (ℕ × ℕ) :=
  let d := npdiff ((0 : ℤ) :: toBin v ++ [0])
  (whereEq d 1).zip (whereEq d (-1))

/-- Line io.py:1090: `tmp_vec = np.array(stop[:-1] + tol) > np.array(start[1:])`,
one Boolean per adjacent pair of runs. -/
def segLinks (segs : List (ℕ × ℕ)) (tol : ℕ) : List Bool :=
  List.zipWith (fun a b => decide (b.1 < a.2 + tol)) segs segs.tail

/-- `DataFrame.loc[idxs]`: label indexing raises `KeyError` when a label is
missing, modelled as `none`. -/
def locLookup (segs : List (ℕ × ℕ)) (idxs : List ℕ) : Option (List (ℕ × ℕ)) :=
  idxs.mapM (fun i => segs.get? i)

/-- Lines io.py:1084-1117 of `find_intervals_binary_vector`: the
sample-offset part.  The maximal runs of ones are merged along
`tmp_vec` by extracting, from the padded diff of `tmp_vec`, the chain
starts (`t0`), chain ends (`t1`) and the lonely rows (`t_noverlap`,
the set difference `t3 - (t3 & t1)` of ascending duplicate-free index
lists, i.e. a filter), then concatenating merged chains with lonely rows
and sorting by `start_samples` (`sort_values`, modelled by insertion
sort, any comparison sort on the distinct starts).  `DataFrame.loc`
indexing with a missing label raises, hence the `Option`. -/
def find_intervals_samples (v : List Bool) (tol : ℕ) : Option (List (ℕ × ℕ)) :=
  let segs := findRuns v
  let tmp_vec := segLinks segs tol
  let diff_vector := (0 : ℤ) :: toBin tmp_vec ++ [0]
  let bin_det := diff_vector.tail
  let d := npdiff diff_vector
  let t0 := whereEq d 1
  let t1 := whereEq d (-1)
  let t3 := whereEq bin_det 0
  let t_noverlap := t3.filter (fun i => decide (i ∉ t1))
  match locLookup segs t0, locLookup segs t1, locLookup segs t_noverlap with
  | some overlap_start_rows, some overlap_end_rows, some lonely_segments =>
      some (List.insertionSort (fun a b => a.1 ≤ b.1)
        ((overlap_start_rows.map Prod.fst).zip (overlap_end_rows.map Prod.snd)
          ++ lonely_segments))
  | _, _, _ => none

/-- One output row of `find_intervals_binary_vector`. -/
structure IntervalRow where
  start_samples : ℕ
  stop_samples : ℕ
  start_uutc : ℤ
  stop_uutc : ℤ
deriving DecidableEq, Repr

/-- `find_intervals_binary_vector(input_bin_vector, fs, start_uutc,
samples_of_nans_allowed)` (io.py:1038-1122).  The default tolerance is
`int(fs)`; the uutc columns are `(samples / fs * 1e6 + start_uutc)` cast
to `int64` (truncation toward zero). -/
def find_intervals_binary_vector (v : List Bool) (fs : ℚ) (start_uutc : ℤ)
    (samples_of_nans_allowed : Option ℕ) : Option (List IntervalRow) :=
  let tol : ℕ :=
    match samples_of_nans_allowed with
    | none => (ratTrunc fs).toNat
    | some t => t
  (find_intervals_samples v tol).map
    (List.map (fun r =>
      ⟨r.1, r.2,
        ratTrunc ((r.1 : ℚ) / fs * 1000000 + (start_uutc : ℚ)),
        ratTrunc ((r.2 : ℚ) / fs * 1000000 + (start_uutc : ℚ))⟩))

/-! ### WriteOrchestrator: `MefWriter.write_data` (io.py:348-474)

The storage engine (`pymef` session) is excluded from the core; the calls
the orchestrator issues to it are recorded as a trace.  The
`_reload_session_info` that replaces the cache wholesale from the engine
after a mutating write is likewise recorded as a trace event. -/

/-- A storage-engine call dispatched by the orchestrator
(`_create_segment` io.py:579, `_append_block` io.py:643,
`_reload_session_info` io.py:339). -/
inductive StorageCall where
  | createSegment (channel : String) (segment : ℕ) (start_uutc stop_uutc : ℤ)
      (sampling_frequency : ℚ) (data : List ℤ)
  | appendBlock (channel : String) (segment : ℕ) (start_uutc stop_uutc : ℤ)
      (data : List ℤ)
  | reloadSessionInfo
deriving DecidableEq, Repr

/-- One entry of `MefWriter.channel_info`.  A freshly created channel's
dict (io.py:433) holds only `mef_block_len` and `ufact`; the keys read on
the known-channel path (`fsamp`, `end_time`, `n_segments`) exist only
after a metadata reload and are therefore `Option`s here (reading a
missing key raises `KeyError`). -/
structure ChanInfo where
  mef_block_len : ℤ
  ufact : ℚ
  fsamp : Option ℚ
  end_time : Option ℤ
  n_segments : Option ℕ
deriving DecidableEq, Repr

/-- The mutable state of `MefWriter` that `write_data` consults:
`channel_info`, the `max_nans_written` property (`none` models the
default string value `'fs'`) and the `mef_block_len` property override. -/
structure WriterState where
  channel_info : List (String × ChanInfo)
  max_nans_written : Option ℕ
  mef_block_len_prop : Option ℤ
deriving DecidableEq, Repr

/-- Python dict read `self.channel_info[channel]` (missing key = `none`). -/
def lookupChan (st : WriterState) (channel : String) : Option ChanInfo :=
  (st.channel_info.find? (fun pr => pr.1 == channel)).map Prod.snd

/-- Python dict write `self.channel_info[channel] = info`. -/
def setChan (st : WriterState) (channel : String) (info : ChanInfo) : WriterState :=
  ⟨(channel, info) :: st.channel_info.filter (fun pr => pr.1 != channel),
    st.max_nans_written, st.mef_block_len_prop⟩

/-- `MefWriter.get_mefblock_len(fs)` (io.py:682-704). -/
def get_mefblock_len (st : WriterState) (fs : ℚ) : ℤ :=
  match st.mef_block_len_prop with
  | some v => v
  | none =>
    if 5000 ≤ fs then ratTrunc fs
    else if fs < 0 then ratTrunc (fs * 100)
    else ratTrunc (fs * 10)

/-- The outcome of a Python call: a returned value or an uncaught
exception. -/
inductive PyResult where
  | ret (value : Option Bool)
  | exc
deriving DecidableEq, Repr

/-- Python slice `l[a:b]` on a nonnegative range. -/
def npslice (l : List ℤ) (a b : ℕ) : List ℤ := (l.take b).drop a

/-- The derived end timestamp
`end_uutc = int64(start_uutc + len(data) / fs * 1e6)` (io.py:393). -/
def derived_end (start_uutc : ℤ) (n : ℕ) (fs : ℚ) : ℤ :=
  ratTrunc ((start_uutc : ℚ) + (n : ℚ) / fs * 1000000)

/-- The dispatch loops of `write_data` (io.py:452-468): with a new
segment, the first interval creates the segment and the rest are appended;
without, every interval is appended to segment `segment - 1`. -/
def dispatch_intervals (channel : String) (fs : ℚ) (segment : ℕ)
    (new_segment : Bool) (data_converted : List ℤ) (rows : List IntervalRow) :
    List StorageCall :=
  if new_segment then
    match rows with
    | [] => []
    | r0 :: rest =>
      StorageCall.createSegment channel segment r0.start_uutc r0.stop_uutc fs
          (npslice data_converted r0.start_samples r0.stop_samples)
        :: rest.map (fun r => StorageCall.appendBlock channel segment r.start_uutc
            r.stop_uutc (npslice data_converted r.start_samples r.stop_samples))
  else
    rows.map (fun r => StorageCall.appendBlock channel (segment - 1) r.start_uutc
      r.stop_uutc (npslice data_converted r.start_samples r.stop_samples))

/-- The tail of `write_data` shared by the known-channel and new-channel
paths (io.py:436-474): interval planning (`discont_handler`), dispatch,
and the final metadata reload (forced after a new segment). -/
def finish_write (st : WriterState) (channel : String) (start_uutc : ℤ)
    (sampling_freq : ℚ) (end_uutc : ℤ) (segment : ℕ)
    (new_segment discont_handler reload_metadata : Bool)
    (data_write : List (Option ℚ)) (data_converted : List ℤ) :
    PyResult × List StorageCall × WriterState :=
  let df_intervals : Option (List IntervalRow) :=
    if discont_handler then
      let max_nans : ℕ :=
        match st.max_nans_written with
        | none => (ratTrunc sampling_freq).toNat
        | some v => v
      find_intervals_binary_vector (data_write.map (fun x => x.isSome))
        sampling_freq start_uutc (some max_nans)
    else some [⟨0, data_converted.length, start_uutc, end_uutc⟩]
  match df_intervals with
  | none => (PyResult.exc, [], st)
  | some rows =>
    let calls := dispatch_intervals channel sampling_freq segment new_segment
      data_converted rows
    let reload := reload_metadata || new_segment
    (PyResult.ret (some true),
      calls ++ (if reload then [StorageCall.reloadSessionInfo] else []), st)

/-- `MefWriter.write_data` (io.py:348-474).  Returns the Python result,
the trace of storage-engine calls, and the writer state after the call
(before the engine-driven metadata reload, which is the last trace
event when issued).  The known-channel path recovers the precision from
the cached scale factor, `precision = int(-1 * np.log10(ufact))`
(io.py:414), ignoring the caller's `precision`; on the cache invariant
`ufact = 10^(-p)` the recovery is exact and is modelled as
`-(Int.log 10 ufact)`.  The new-channel path persists
`ufact = np.round(0.1 ** precision, precision)` (io.py:431), which on
integral `precision` is exactly `(1/10) ^ precision`; `np.round` with a
non-integer `decimals` raises. -/
def write_data (st : WriterState) (data_write : List (Option ℚ)) (channel : String)
    (start_uutc : ℤ) (sampling_freq : ℚ) (end_uutc : Option ℤ)
    (precision : Option ℚ) (new_segment discont_handler reload_metadata : Bool) :
    PyResult × List StorageCall × WriterState :=
  let end_uutc : ℤ :=
    match end_uutc with
    | none => derived_end start_uutc data_write.length sampling_freq
    | some e => e
  if end_uutc < start_uutc then (PyResult.ret none, [], st)
  else
    match lookupChan st channel with
    | some info =>
      match info.end_time, info.fsamp, info.n_segments with
      | some end_time, some fsamp, some n_segments =>
        if start_uutc < end_time then (PyResult.ret none, [], st)
        else if sampling_freq ≠ fsamp then (PyResult.ret none, [], st)
        else
          let prec : ℤ := -(Int.log 10 info.ufact)
          let data_converted := convert_data_to_int32 data_write (some (prec : ℚ))
          finish_write st channel start_uutc sampling_freq end_uutc n_segments
            new_segment discont_handler reload_metadata data_write data_converted
      | _, _, _ => (PyResult.exc, [], st)
    | none =>
      let prec : ℚ :=
        match precision with
        | none => (infer_conversion_factor data_write : ℚ)
        | some p => p
      if prec.den ≠ 1 then (PyResult.exc, [], st)
      else
        let ufact : ℚ := np_round ((1/10 : ℚ) ^ prec.num) prec.num
        let st2 := setChan st channel
          ⟨get_mefblock_len st sampling_freq, ufact, none, none, none⟩
        let data_converted := convert_data_to_int32 data_write (some prec)
        finish_write st2 channel start_uutc sampling_freq end_uutc 0
          true discont_handler reload_metadata data_write data_converted

/-! ### Specification-side reference definitions for the interval merger

These definitions follow the wording of the specification ("maximal runs
of valid samples", "gap between adjacent runs", "merged when the gap is
small enough") and are compared against the literal embedding above. -/

/-- Maximal runs of `true` in a Boolean vector, as half-open sample ranges
`[start, stop)`.  `i` is the absolute position of the head of the
remaining vector, `o` the start of the currently open run (if any). -/
def runsFrom : ℕ → Option ℕ → List Bool → List (ℕ × ℕ)
  | _, none, [] => []
  | i, some s, [] => [(s, i)]
  | i, none, true :: v => runsFrom (i + 1) (some i) v
  | i, none, false :: v => runsFrom (i + 1) none v
  | i, some s, true :: v => runsFrom (i + 1) (some s) v
  | i, some s, false :: v => (s, i) :: runsFrom (i + 1) none v

/-- The maximal runs of valid samples of a validity vector. -/
def maximalRuns (v : List Bool) : List (ℕ × ℕ) := runsFrom 0 none v

/-- Merge a run list along an explicit Boolean link vector: `links[j]`
tells whether run `j` is joined with run `j+1`.  This is the chain
extraction of io.py:1089-1115 in recursive form. -/
def mergeLinkedGo : (ℕ × ℕ) → List (ℕ × ℕ) → List Bool → List (ℕ × ℕ)
  | cur, [], _ => [cur]
  | cur, _ :: _, [] => [cur]
  | cur, r :: rest, link :: links =>
    if link then mergeLinkedGo (cur.1, r.2) rest links
    else cur :: mergeLinkedGo r rest links

/-- Top level of `mergeLinkedGo`. -/
def mergeLinkedTop : List (ℕ × ℕ) → List Bool → List (ℕ × ℕ)
  | [], _ => []
  | r :: rest, links => mergeLinkedGo r rest links

/-- Gap-based merging of adjacent runs, amended semantics: two adjacent
runs are merged exactly when the gap between them (`start` of the later
minus `stop` of the earlier) is STRICTLY smaller than the tolerance. -/
def mergeRunsGo (tol : ℕ) : (ℕ × ℕ) → List (ℕ × ℕ) → List (ℕ × ℕ)
  | cur, [] => [cur]
  | cur, r :: rest =>
    if r.1 - cur.2 < tol then mergeRunsGo tol (cur.1, r.2) rest
    else cur :: mergeRunsGo tol r rest

/-- Gap-based merging of adjacent runs (strict-gap semantics). -/
def mergeRuns (tol : ℕ) : List (ℕ × ℕ) → List (ℕ × ℕ)
  | [] => []
  | r :: rest => mergeRunsGo tol r rest

/-- Gap-based merging as the claim states it: merged exactly when the gap
is smaller than OR EQUAL TO the tolerance. -/
def mergeRunsClaimGo (tol : ℕ) : (ℕ × ℕ) → List (ℕ × ℕ) → List (ℕ × ℕ)
  | cur, [] => [cur]
  | cur, r :: rest =>
    if r.1 - cur.2 ≤ tol then mergeRunsClaimGo tol (cur.1, r.2) rest
    else cur :: mergeRunsClaimGo tol r rest

/-- Claim-side merging (gap ≤ tolerance). -/
def mergeRunsClaim (tol : ℕ) : List (ℕ × ℕ) → List (ℕ × ℕ)
  | [] => []
  | r :: rest => mergeRunsClaimGo tol r rest

/-! ### Proof-layer views of the pipeline (definitions used by the
lemmas below) -/

/-- The diff of the padded vector, parameterised by the previous value
`p`: `edgeList p v c = np.where(np.diff(p :: v ++ [0]) == c)[0]`. -/
def edgeList (p : ℤ) (v : List Bool) (c : ℤ) : List ℕ :=
  whereEq (npdiff (p :: toBin v ++ [0])) c

/-- `bin_det = diff_vector[1:]` as an index list: positions of the zero
entries of the binary link vector padded with a final zero
(io.py:1092, 1098). -/
def zerosOf (L : List Bool) : List ℕ := whereEq (toBin L ++ [0]) 0

/-- Row lookup for a merged chain: start of the chain's first run, stop of
its last run (io.py:1103-1104). -/
def lookPair (segs : List (ℕ × ℕ)) (r : ℕ × ℕ) : ℕ × ℕ :=
  ((segs.getD r.1 (0, 0)).1, (segs.getD r.2 (0, 0)).2)

/-- The merged chain rows, indexed by the maximal runs of the link
vector. -/
def mergedOf (segs : List (ℕ × ℕ)) (L : List Bool) : List (ℕ × ℕ) :=
  (maximalRuns L).map (lookPair segs)

/-- Chain-end positions (`t1` of io.py:1096). -/
def fallsOf (L : List Bool) : List ℕ := (maximalRuns L).map Prod.snd

/-- `t_noverlap` of io.py:1099: zero positions that are not chain ends. -/
def lonelyIdx (L : List Bool) : List ℕ :=
  (zerosOf L).filter (fun i => decide (i ∉ fallsOf L))

/-- The lonely rows (io.py:1107). -/
def lonelyOf (segs : List (ℕ × ℕ)) (L : List Bool) : List (ℕ × ℕ) :=
  (lonelyIdx L).map (fun i => segs.getD i (0, 0))

/-- A concrete writer state with one fully reloaded channel `"X"`
(`end_time = 2000`, `fsamp = 128`, one segment), used to instantiate the
`write_data` theorems. -/
def demoState : WriterState :=
  ⟨[("X", ⟨1280, 1, some 128, some 2000, some 1⟩)], none, none⟩

/-! ### Lemmas: edge detection equals maximal-run extraction -/

theorem whereEq_nil (c : ℤ) : whereEq [] c = [] := rfl

theorem whereEq_cons (x : ℤ) (l : List ℤ) (c : ℤ) :
    whereEq (x :: l) c =
      (if x = c then [0] else []) ++ (whereEq l c).map (· + 1) := by
  have hcomp : ((fun i => decide ((x :: l).getD i 0 = c)) ∘ Nat.succ) =
      (fun i => decide (l.getD i 0 = c)) := by
    funext i
    simp
  have hmap : ∀ y : List ℕ, y.map Nat.succ = y.map (· + 1) :=
    fun y => List.map_congr_left (fun a _ => rfl)
  unfold whereEq
  rw [List.length_cons, List.range_succ_eq_map, List.filter_cons, List.filter_map, hcomp,
    hmap]
  by_cases hx : x = c
  · simp [hx]
  · simp [hx]

theorem mem_whereEq_lt_length {l : List ℤ} {c : ℤ} {i : ℕ} (h : i ∈ whereEq l c) :
    i < l.length := by
  unfold whereEq at h
  exact List.mem_range.mp (List.mem_of_mem_filter h)

theorem findRuns_eq_edge (v : List Bool) :
    findRuns v = (edgeList 0 v 1).zip (edgeList 0 v (-1)) := rfl

theorem edgeList_nil (p c : ℤ) : edgeList p [] c = if 0 - p = c then [0] else [] := by
  show whereEq ((0 - p) :: []) c = _
  rw [whereEq_cons, whereEq_nil]
  simp

theorem edgeList_cons (p : ℤ) (b : Bool) (v : List Bool) (c : ℤ) :
    edgeList p (b :: v) c =
      (if (if b then (1 : ℤ) else 0) - p = c then [0] else [])
        ++ (edgeList (if b then 1 else 0) v c).map (· + 1) := by
  show whereEq (((if b then (1 : ℤ) else 0) - p) ::
      npdiff ((if b then (1 : ℤ) else 0) :: toBin v ++ [0])) c = _
  rw [whereEq_cons]
  rfl

theorem runsFrom_open_head (v : List Bool) (i s : ℕ) :
    ∃ c rest, runsFrom i (some s) v = (s, c) :: rest := by
  induction v generalizing i with
  | nil => exact ⟨i, [], rfl⟩
  | cons b t ih =>
    cases b with
    | true => exact ih (i + 1)
    | false => exact ⟨i, runsFrom (i + 1) none t, rfl⟩

theorem map_shift_shift (l : List ℕ) (i : ℕ) :
    (l.map (· + 1)).map (· + i) = l.map (· + (i + 1)) := by
  rw [List.map_map]
  apply List.map_congr_left
  intro a _
  simp only [Function.comp]
  omega

theorem edge_spec (v : List Bool) :
    ∀ i : ℕ,
      ((edgeList 0 v 1).map (· + i) = (runsFrom i none v).map Prod.fst ∧
        (edgeList 0 v (-1)).map (· + i) = (runsFrom i none v).map Prod.snd) ∧
      (∀ s : ℕ,
        (edgeList 1 v 1).map (· + i) = ((runsFrom i (some s) v).map Prod.fst).tail ∧
        (edgeList 1 v (-1)).map (· + i) = (runsFrom i (some s) v).map Prod.snd) := by
  induction v with
  | nil =>
    intro i
    refine ⟨⟨?_, ?_⟩, fun s => ⟨?_, ?_⟩⟩ <;>
      simp [edgeList_nil, runsFrom]
  | cons b t ih =>
    intro i
    cases b with
    | true =>
      have hrw : ∀ c : ℤ, edgeList 0 (true :: t) c =
          (if (1 : ℤ) = c then [0] else []) ++ (edgeList 1 t c).map (· + 1) := by
        intro c
        rw [edgeList_cons]
        norm_num
      have hrw1 : ∀ c : ℤ, edgeList 1 (true :: t) c =
          (if (0 : ℤ) = c then [0] else []) ++ (edgeList 1 t c).map (· + 1) := by
        intro c
        rw [edgeList_cons]
        norm_num
      refine ⟨⟨?_, ?_⟩, fun s => ⟨?_, ?_⟩⟩
      · -- rises, closed state: a run starts at position i
        rw [hrw 1, if_pos rfl]
        have hstep : runsFrom i none (true :: t) = runsFrom (i + 1) (some i) t := rfl
        rw [hstep]
        obtain ⟨c, rest, hO⟩ := runsFrom_open_head t (i + 1) i
        have hIH := ((ih (i + 1)).2 i).1
        rw [hO] at hIH ⊢
        rw [List.map_append, map_shift_shift, hIH]
        simp
      · -- falls, closed state: nothing falls at i
        rw [hrw (-1), if_neg (by decide), List.nil_append, map_shift_shift,
          ((ih (i + 1)).2 i).2]
        rfl
      · -- rises, open state: the run continues
        rw [hrw1 1, if_neg (by decide), List.nil_append, map_shift_shift,
          ((ih (i + 1)).2 s).1]
        rfl
      · -- falls, open state: the run continues
        rw [hrw1 (-1), if_neg (by decide), List.nil_append, map_shift_shift,
          ((ih (i + 1)).2 s).2]
        rfl
    | false =>
      have hrw : ∀ c : ℤ, edgeList 0 (false :: t) c =
          (if (0 : ℤ) = c then [0] else []) ++ (edgeList 0 t c).map (· + 1) := by
        intro c
        rw [edgeList_cons]
        norm_num
      have hrw1 : ∀ c : ℤ, edgeList 1 (false :: t) c =
          (if (-1 : ℤ) = c then [0] else []) ++ (edgeList 0 t c).map (· + 1) := by
        intro c
        rw [edgeList_cons]
        norm_num
      refine ⟨⟨?_, ?_⟩, fun s => ⟨?_, ?_⟩⟩
      · rw [hrw 1, if_neg (by decide), List.nil_append, map_shift_shift,
          ((ih (i + 1)).1).1]
        rfl
      · rw [hrw (-1), if_neg (by decide), List.nil_append, map_shift_shift,
          ((ih (i + 1)).1).2]
        rfl
      · -- rises, open state over a gap: the open run closes at i, no rise
        rw [hrw1 1, if_neg (by decide), List.nil_append, map_shift_shift,
          ((ih (i + 1)).1).1]
        rfl
      · -- falls, open state over a gap: the fall is recorded at i
        rw [hrw1 (-1), if_pos rfl, List.map_append, map_shift_shift,
          ((ih (i + 1)).1).2]
        simp [runsFrom]
theorem map_add_zero (y : List ℕ) : y.map (· + 0) = y := by
  rw [List.map_congr_left (fun a _ => Nat.add_zero a)]
  simp

theorem zip_map_fst_snd {α β : Type} : ∀ R : List (α × β),
    (R.map Prod.fst).zip (R.map Prod.snd) = R
  | [] => rfl
  | r :: R => by
    simp [zip_map_fst_snd R]

theorem rises_eq_starts (v : List Bool) :
    edgeList 0 v 1 = (maximalRuns v).map Prod.fst := by
  have h := ((edge_spec v 0).1).1
  rwa [map_add_zero] at h

theorem falls_eq_stops (v : List Bool) :
    edgeList 0 v (-1) = (maximalRuns v).map Prod.snd := by
  have h := ((edge_spec v 0).1).2
  rwa [map_add_zero] at h

/-- The padded-diff extraction of io.py:1078-1087 computes exactly the
maximal runs of ones. -/
theorem findRuns_eq_maximalRuns (v : List Bool) : findRuns v = maximalRuns v := by
  rw [findRuns_eq_edge, rises_eq_starts, falls_eq_stops, zip_map_fst_snd]

/-! ### Lemmas: structural invariants of the maximal runs -/

theorem runsFrom_inv (v : List Bool) :
    ∀ (i : ℕ) (o : Option ℕ), (∀ s, o = some s → s < i) →
      (∀ r ∈ runsFrom i o v, r.1 < r.2) ∧
        List.Chain' (fun a b => a.2 < b.1) (runsFrom i o v) ∧
        (∀ r ∈ runsFrom i o v, o.getD i ≤ r.1 ∧ i ≤ r.2) := by
  induction v with
  | nil =>
    intro i o ho
    cases o with
    | none => simp [runsFrom]
    | some s =>
      have hs := ho s rfl
      simp [runsFrom]
      omega
  | cons b t ih =>
    intro i o ho
    cases o with
    | none =>
      cases b with
      | true =>
        have h := ih (i + 1) (some i) (by intro s hs; cases hs; omega)
        refine ⟨h.1, h.2.1, fun r hr => ?_⟩
        have := (h.2.2 r hr)
        simp at this ⊢
        omega
      | false =>
        have h := ih (i + 1) none (by intro s hs; cases hs)
        refine ⟨h.1, h.2.1, fun r hr => ?_⟩
        have := (h.2.2 r hr)
        simp at this ⊢
        omega
    | some s =>
      have hs := ho s rfl
      cases b with
      | true =>
        have h := ih (i + 1) (some s) (by intro u hu; cases hu; omega)
        refine ⟨h.1, h.2.1, fun r hr => ?_⟩
        have := (h.2.2 r hr)
        simp at this ⊢
        omega
      | false =>
        have h := ih (i + 1) none (by intro u hu; cases hu)
        show (∀ r ∈ (s, i) :: runsFrom (i + 1) none t, r.1 < r.2) ∧ _
        refine ⟨?_, ?_, ?_⟩
        · intro r hr
          rcases List.mem_cons.mp hr with rfl | hr
          · exact hs
          · exact h.1 r hr
        · refine List.chain'_cons'.mpr ⟨?_, h.2.1⟩
          intro y hy
          have hmem := List.mem_of_mem_head? hy
          have := (h.2.2 y hmem).1
          simp at this
          omega
        · intro r hr
          rcases List.mem_cons.mp hr with rfl | hr
          · simp
          · have := h.2.2 r hr
            simp at this ⊢
            omega

theorem maximalRuns_inv (v : List Bool) :
    (∀ r ∈ maximalRuns v, r.1 < r.2) ∧
      List.Chain' (fun a b => a.2 < b.1) (maximalRuns v) :=
  ⟨(runsFrom_inv v 0 none (by intro s hs; cases hs)).1,
    (runsFrom_inv v 0 none (by intro s hs; cases hs)).2.1⟩

theorem runsFrom_open_ne_nil (v : List Bool) (i s : ℕ) :
    runsFrom i (some s) v ≠ [] := by
  obtain ⟨c, rest, h⟩ := runsFrom_open_head v i s
  simp [h]

theorem runsFrom_ne_nil {v : List Bool} (hv : true ∈ v) :
    ∀ i : ℕ, runsFrom i none v ≠ [] := by
  induction v with
  | nil => cases hv
  | cons b t ih =>
    intro i
    cases b with
    | true => exact runsFrom_open_ne_nil t (i + 1) i
    | false =>
      have ht : true ∈ t := by
        rcases List.mem_cons.mp hv with h | h
        · cases h
        · exact h
      exact ih ht (i + 1)

theorem maximalRuns_ne_nil {v : List Bool} (hv : true ∈ v) :
    maximalRuns v ≠ [] := runsFrom_ne_nil hv 0

theorem map_shift_shift2 (l : List ℕ) (a b : ℕ) :
    (l.map (· + a)).map (· + b) = l.map (· + (a + b)) := by
  rw [List.map_map]
  apply List.map_congr_left
  intro x _
  simp only [Function.comp]
  omega

theorem mem_map_add_iff (l : List ℕ) (x j : ℕ) :
    x + j ∈ l.map (· + j) ↔ x ∈ l := by
  rw [List.mem_map]
  constructor
  · rintro ⟨a, ha, hax⟩
    have : a = x := by omega
    rwa [← this]
  · intro hx
    exact ⟨x, hx, rfl⟩

theorem getD_drop (l : List (ℕ × ℕ)) (m x : ℕ) :
    (l.drop m).getD x (0, 0) = l.getD (x + m) (0, 0) := by
  induction m generalizing l with
  | zero => simp
  | succ m ih =>
    cases l with
    | nil => simp
    | cons a t =>
      rw [List.drop_succ_cons, ih t]
      rw [show x + (m + 1) = (x + m) + 1 by omega, List.getD_cons_succ]

theorem runsFrom_shift (v : List Bool) :
    ∀ i j : ℕ,
      (runsFrom (i + j) none v =
        (runsFrom i none v).map (fun r => (r.1 + j, r.2 + j))) ∧
      ∀ s : ℕ, runsFrom (i + j) (some (s + j)) v =
        (runsFrom i (some s) v).map (fun r => (r.1 + j, r.2 + j)) := by
  induction v with
  | nil =>
    intro i j
    exact ⟨rfl, fun s => rfl⟩
  | cons b t ih =>
    intro i j
    cases b with
    | true =>
      constructor
      · have h := (ih (i + 1) j).2 i
        show runsFrom (i + j + 1) (some (i + j)) t = _
        rw [show i + j + 1 = i + 1 + j by omega] at *
        exact h
      · intro s
        have h := (ih (i + 1) j).2 s
        show runsFrom (i + j + 1) (some (s + j)) t = _
        rw [show i + j + 1 = i + 1 + j by omega] at *
        exact h
    | false =>
      constructor
      · have h := (ih (i + 1) j).1
        show runsFrom (i + j + 1) none t = _
        rw [show i + j + 1 = i + 1 + j by omega] at *
        exact h
      · intro s
        have h := (ih (i + 1) j).1
        show (s + j, i + j) :: runsFrom (i + j + 1) none t = _
        rw [show i + j + 1 = i + 1 + j by omega] at *
        rw [h]
        rfl

theorem runsFrom_openChunk (k : ℕ) :
    ∀ (i s : ℕ) (L : List Bool),
      runsFrom i (some s) (List.replicate k true ++ false :: L) =
        (s, i + k) :: runsFrom (i + k + 1) none L := by
  induction k with
  | zero =>
    intro i s L
    rfl
  | succ k ih =>
    intro i s L
    show runsFrom (i + 1) (some s) (List.replicate k true ++ false :: L) = _
    rw [ih (i + 1) s L]
    rw [show i + 1 + k = i + (k + 1) by omega]

theorem runsFrom_openAll (k : ℕ) :
    ∀ i s : ℕ, runsFrom i (some s) (List.replicate k true) = [(s, i + k)] := by
  induction k with
  | zero => intro i s; rfl
  | succ k ih =>
    intro i s
    show runsFrom (i + 1) (some s) (List.replicate k true) = _
    rw [ih (i + 1) s]
    rw [show i + 1 + k = i + (k + 1) by omega]

theorem zerosOf_nil : zerosOf [] = [0] := by decide

theorem zerosOf_cons (b : Bool) (L : List Bool) :
    zerosOf (b :: L) =
      (if b then [] else [0]) ++ (zerosOf L).map (· + 1) := by
  show whereEq ((if b then (1 : ℤ) else 0) :: (toBin L ++ [0])) 0 = _
  rw [whereEq_cons]
  cases b <;> simp [zerosOf]

theorem zerosOf_trueChunk (k : ℕ) :
    ∀ M : List Bool, zerosOf (List.replicate k true ++ M) =
      (zerosOf M).map (· + k) := by
  induction k with
  | zero =>
    intro M
    simp [map_add_zero]
  | succ k ih =>
    intro M
    show zerosOf (true :: (List.replicate k true ++ M)) = _
    rw [zerosOf_cons, ih M]
    simp only [if_true, List.nil_append]
    rw [map_shift_shift2]

theorem splitTrues (L : List Bool) :
    ∃ k rest, L = List.replicate k true ++ rest ∧
      (rest = [] ∨ ∃ L₃, rest = false :: L₃) := by
  induction L with
  | nil => exact ⟨0, [], rfl, Or.inl rfl⟩
  | cons b t ih =>
    cases b with
    | true =>
      obtain ⟨k, rest, hsplit, hrest⟩ := ih
      exact ⟨k + 1, rest, by rw [List.replicate_succ, List.cons_append, ← hsplit], hrest⟩
    | false => exact ⟨0, false :: t, rfl, Or.inr ⟨t, rfl⟩⟩

/-! ### The chain extraction as merged chains plus lonely rows -/

theorem zero_not_mem_map_add_one (l : List ℕ) : 0 ∉ l.map (· + 1) := by
  simp [List.mem_map]

theorem runs_false_cons (L : List Bool) :
    maximalRuns (false :: L) =
      (maximalRuns L).map (fun r => (r.1 + 1, r.2 + 1)) := by
  show runsFrom (0 + 1) none L = _
  exact (runsFrom_shift L 0 1).1

theorem mergedOf_false_cons (s : ℕ × ℕ) (segs : List (ℕ × ℕ)) (L : List Bool) :
    mergedOf (s :: segs) (false :: L) = mergedOf segs L := by
  unfold mergedOf
  rw [runs_false_cons, List.map_map]
  apply List.map_congr_left
  intro r _
  simp [lookPair, Function.comp, List.getD_cons_succ]

theorem fallsOf_false_cons (L : List Bool) :
    fallsOf (false :: L) = (fallsOf L).map (· + 1) := by
  unfold fallsOf
  rw [runs_false_cons, List.map_map, List.map_map]
  rfl

theorem filter_not_mem_shift (zs fs : List ℕ) (j : ℕ) :
    (zs.map (· + j)).filter (fun i => decide (i ∉ fs.map (· + j))) =
      (zs.filter (fun i => decide (i ∉ fs))).map (· + j) := by
  rw [List.filter_map]
  congr 1
  apply List.filter_congr
  intro a _
  simp only [Function.comp]
  exact decide_eq_decide.mpr (not_congr (mem_map_add_iff fs a j))

theorem lonelyIdx_false_cons (L : List Bool) :
    lonelyIdx (false :: L) = 0 :: (lonelyIdx L).map (· + 1) := by
  unfold lonelyIdx
  rw [zerosOf_cons, fallsOf_false_cons]
  simp only [Bool.false_eq_true, if_false, List.singleton_append, List.filter_cons]
  rw [if_pos (decide_eq_true (zero_not_mem_map_add_one (fallsOf L)))]
  rw [filter_not_mem_shift]

theorem lonelyOf_false_cons (s : ℕ × ℕ) (segs : List (ℕ × ℕ)) (L : List Bool) :
    lonelyOf (s :: segs) (false :: L) = s :: lonelyOf segs L := by
  unfold lonelyOf
  rw [lonelyIdx_false_cons]
  simp only [List.map_cons, List.getD_cons_zero, List.map_map]
  congr 1
theorem runs_trueChunk (k : ℕ) (hk : 1 ≤ k) (L : List Bool) :
    maximalRuns (List.replicate k true ++ false :: L) =
      (0, k) :: (maximalRuns L).map (fun r => (r.1 + (k + 1), r.2 + (k + 1))) := by
  obtain ⟨j, rfl⟩ : ∃ j, k = j + 1 := ⟨k - 1, by omega⟩
  show runsFrom 1 (some 0) (List.replicate j true ++ false :: L) = _
  rw [runsFrom_openChunk j 1 0 L]
  have hsh := (runsFrom_shift L 0 (j + 2)).1
  rw [show (1 + j + 1) = 0 + (j + 2) by omega, hsh]
  rw [show (1 + j) = j + 1 by omega, show j + 2 = j + 1 + 1 from rfl]
  rfl

theorem runs_trueAll (k : ℕ) (hk : 1 ≤ k) :
    maximalRuns (List.replicate k true) = [(0, k)] := by
  obtain ⟨j, rfl⟩ : ∃ j, k = j + 1 := ⟨k - 1, by omega⟩
  show runsFrom 1 (some 0) (List.replicate j true) = _
  rw [runsFrom_openAll j 1 0]
  rw [show (1 + j) = j + 1 by omega]

theorem mergedOf_trueChunk (k : ℕ) (hk : 1 ≤ k) (L : List Bool)
    (segs : List (ℕ × ℕ)) :
    mergedOf segs (List.replicate k true ++ false :: L) =
      ((segs.getD 0 (0, 0)).1, (segs.getD k (0, 0)).2)
        :: mergedOf (segs.drop (k + 1)) L := by
  unfold mergedOf
  rw [runs_trueChunk k hk L]
  simp only [List.map_cons, List.map_map]
  congr 1
  apply List.map_congr_left
  intro r _
  simp only [Function.comp, lookPair]
  rw [getD_drop, getD_drop]

theorem mergedOf_trueAll (k : ℕ) (hk : 1 ≤ k) (segs : List (ℕ × ℕ)) :
    mergedOf segs (List.replicate k true) =
      [((segs.getD 0 (0, 0)).1, (segs.getD k (0, 0)).2)] := by
  unfold mergedOf
  rw [runs_trueAll k hk]
  rfl

theorem fallsOf_trueChunk (k : ℕ) (hk : 1 ≤ k) (L : List Bool) :
    fallsOf (List.replicate k true ++ false :: L) =
      k :: (fallsOf L).map (· + (k + 1)) := by
  unfold fallsOf
  rw [runs_trueChunk k hk L]
  simp [List.map_map, Function.comp]

theorem fallsOf_trueAll (k : ℕ) (hk : 1 ≤ k) :
    fallsOf (List.replicate k true) = [k] := by
  unfold fallsOf
  rw [runs_trueAll k hk]
  rfl

theorem zerosOf_trueChunkFalse (k : ℕ) (L : List Bool) :
    zerosOf (List.replicate k true ++ false :: L) =
      k :: (zerosOf L).map (· + (k + 1)) := by
  rw [zerosOf_trueChunk k (false :: L), zerosOf_cons]
  simp only [Bool.false_eq_true, if_false, List.singleton_append, List.map_cons]
  rw [map_shift_shift2]
  simp [Nat.add_comm 1 k]

theorem zerosOf_trueAll (k : ℕ) : zerosOf (List.replicate k true) = [k] := by
  have h := zerosOf_trueChunk k []
  rw [List.append_nil] at h
  rw [h, zerosOf_nil]
  simp

theorem lonelyIdx_trueChunk (k : ℕ) (hk : 1 ≤ k) (L : List Bool) :
    lonelyIdx (List.replicate k true ++ false :: L) =
      (lonelyIdx L).map (· + (k + 1)) := by
  unfold lonelyIdx
  rw [zerosOf_trueChunkFalse k L, fallsOf_trueChunk k hk L, List.filter_cons]
  rw [if_neg (by simp)]
  have hpred : ∀ a ∈ (zerosOf L).map (· + (k + 1)),
      (decide (a ∉ k :: (fallsOf L).map (· + (k + 1)))) =
        (decide (a ∉ (fallsOf L).map (· + (k + 1)))) := by
    intro a ha
    obtain ⟨x, _, rfl⟩ := List.mem_map.mp ha
    apply decide_eq_decide.mpr
    constructor
    · intro h hmem
      exact h (List.mem_cons_of_mem k hmem)
    · intro h hmem
      rcases List.mem_cons.mp hmem with heq | hmem2
      · omega
      · exact h hmem2
  rw [List.filter_congr hpred, filter_not_mem_shift]

theorem lonelyIdx_trueAll (k : ℕ) (hk : 1 ≤ k) :
    lonelyIdx (List.replicate k true) = [] := by
  unfold lonelyIdx
  rw [zerosOf_trueAll k, fallsOf_trueAll k hk]
  simp

theorem lonelyOf_trueChunk (k : ℕ) (hk : 1 ≤ k) (L : List Bool)
    (segs : List (ℕ × ℕ)) :
    lonelyOf segs (List.replicate k true ++ false :: L) =
      lonelyOf (segs.drop (k + 1)) L := by
  unfold lonelyOf
  rw [lonelyIdx_trueChunk k hk L, List.map_map]
  apply List.map_congr_left
  intro a _
  simp only [Function.comp]
  rw [getD_drop]

theorem lonelyOf_trueAll (k : ℕ) (hk : 1 ≤ k) (segs : List (ℕ × ℕ)) :
    lonelyOf segs (List.replicate k true) = [] := by
  unfold lonelyOf
  rw [lonelyIdx_trueAll k hk]
  rfl

/-! ### Recursive characterisation of `mergeLinkedGo` on chain shapes -/

theorem mergeLinkedGo_trueAll (segs : List (ℕ × ℕ)) :
    ∀ cur, mergeLinkedGo cur segs (List.replicate segs.length true) =
      [(cur.1, ((cur :: segs).getD segs.length (0, 0)).2)] := by
  induction segs with
  | nil =>
    intro cur
    simp [mergeLinkedGo]
  | cons r rest ih =>
    intro cur
    show mergeLinkedGo cur (r :: rest) (true :: List.replicate rest.length true) = _
    rw [show mergeLinkedGo cur (r :: rest) (true :: List.replicate rest.length true) =
        mergeLinkedGo (cur.1, r.2) rest (List.replicate rest.length true) from rfl]
    rw [ih (cur.1, r.2)]
    congr 2
    show (((cur.1, r.2) :: rest).getD rest.length (0, 0)).2 =
      ((cur :: r :: rest).getD (rest.length + 1) (0, 0)).2
    rw [List.getD_cons_succ]
    cases rest with
    | nil => rfl
    | cons a t => rw [List.length_cons, List.getD_cons_succ, List.getD_cons_succ]

theorem mergeLinkedGo_trueChunk (k : ℕ) :
    ∀ (cur : ℕ × ℕ) (segs : List (ℕ × ℕ)) (L : List Bool), k < segs.length →
      mergeLinkedGo cur segs (List.replicate k true ++ false :: L) =
        (cur.1, ((cur :: segs).getD k (0, 0)).2)
          :: mergeLinkedTop (segs.drop k) L := by
  induction k with
  | zero =>
    intro cur segs L hlen
    cases segs with
    | nil => simp at hlen
    | cons r rest =>
      show mergeLinkedGo cur (r :: rest) (false :: L) = _
      rw [show mergeLinkedGo cur (r :: rest) (false :: L) =
          cur :: mergeLinkedGo r rest L from rfl]
      rfl
  | succ k ih =>
    intro cur segs L hlen
    cases segs with
    | nil => simp at hlen
    | cons r rest =>
      show mergeLinkedGo cur (r :: rest)
          (true :: (List.replicate k true ++ false :: L)) = _
      rw [show mergeLinkedGo cur (r :: rest)
            (true :: (List.replicate k true ++ false :: L)) =
          mergeLinkedGo (cur.1, r.2) rest (List.replicate k true ++ false :: L)
          from rfl]
      rw [ih (cur.1, r.2) rest L (by simpa using Nat.lt_of_succ_lt_succ hlen)]
      congr 2
      · show (((cur.1, r.2) :: rest).getD k (0, 0)).2 =
          ((cur :: r :: rest).getD (k + 1) (0, 0)).2
        rw [List.getD_cons_succ]
        cases k with
        | zero => rfl
        | succ k2 => rw [List.getD_cons_succ, List.getD_cons_succ]

theorem merged_lonely_perm_aux :
    ∀ (n : ℕ) (L : List Bool), L.length ≤ n →
      ∀ segs : List (ℕ × ℕ), segs.length = L.length + 1 →
        (mergedOf segs L ++ lonelyOf segs L).Perm (mergeLinkedTop segs L) := by
  intro n
  induction n with
  | zero =>
    intro L hle segs hlen
    have hL : L = [] := List.length_eq_zero.mp (Nat.le_zero.mp hle)
    subst hL
    match segs, hlen with
    | [s], _ =>
      have h2 : lonelyOf [s] [] = [s] := by
        unfold lonelyOf lonelyIdx fallsOf
        rw [zerosOf_nil]
        simp [maximalRuns, runsFrom]
      show (mergedOf [s] [] ++ lonelyOf [s] []).Perm (mergeLinkedGo s [] [])
      rw [show mergedOf [s] [] = [] from rfl, h2]
      exact List.Perm.refl _
  | succ n ih =>
    intro L hle segs hlen
    cases hLshape : L with
    | nil =>
      subst hLshape
      match segs, hlen with
      | [s], _ =>
        have h2 : lonelyOf [s] [] = [s] := by
          unfold lonelyOf lonelyIdx fallsOf
          rw [zerosOf_nil]
          simp [maximalRuns, runsFrom]
        show (mergedOf [s] [] ++ lonelyOf [s] []).Perm (mergeLinkedGo s [] [])
        rw [show mergedOf [s] [] = [] from rfl, h2]
        exact List.Perm.refl _
    | cons b t =>
      subst hLshape
      cases b with
      | false =>
        match segs, hlen with
        | s :: r :: segs2, hlen =>
          rw [mergedOf_false_cons, lonelyOf_false_cons]
          have hstep : mergeLinkedTop (s :: r :: segs2) (false :: t) =
              s :: mergeLinkedTop (r :: segs2) t := rfl
          rw [hstep]
          refine List.Perm.trans List.perm_middle ?_
          refine List.Perm.cons s ?_
          apply ih t (by simpa using Nat.le_of_succ_le_succ hle)
          simpa using hlen
      | true =>
        obtain ⟨k, rest, hsplit, hrest⟩ := splitTrues (true :: t)
        have hk : 1 ≤ k := by
          rcases Nat.eq_zero_or_pos k with hzero | hpos
          · subst hzero
            simp only [List.replicate, List.nil_append] at hsplit
            rcases hrest with hnil | ⟨L3, hfalse⟩
            · rw [hnil] at hsplit
              cases hsplit
            · rw [hfalse] at hsplit
              cases hsplit
          · exact hpos
        rcases hrest with hnil | ⟨L3, hfalse⟩
        · -- L is all true
          subst hnil
          rw [List.append_nil] at hsplit
          rw [hsplit] at hlen ⊢
          have hlenL : (List.replicate k true).length = k := List.length_replicate k true
          match segs, hlen with
          | s :: segs2, hlen =>
            have hlen2 : segs2.length = k := by
              rw [hlenL] at hlen
              simpa using hlen
            rw [mergedOf_trueAll k hk, lonelyOf_trueAll k hk, List.getD_cons_zero]
            have hrhs : mergeLinkedTop (s :: segs2) (List.replicate k true) =
                [(s.1, ((s :: segs2).getD k (0, 0)).2)] := by
              show mergeLinkedGo s segs2 (List.replicate k true) = _
              rw [← hlen2, mergeLinkedGo_trueAll segs2 s, hlen2]
            rw [hrhs]
            exact List.Perm.refl _
        · -- L = replicate k true ++ false :: L3
          subst hfalse
          rw [hsplit] at hle hlen ⊢
          have hlenL : (List.replicate k true ++ false :: L3).length = k + (L3.length + 1) := by
            simp
          match segs, hlen with
          | s :: segs2, hlen =>
            have hlen2 : segs2.length = k + L3.length + 1 := by
              rw [hlenL] at hlen
              simpa using hlen
            have hklt : k < segs2.length := by omega
            rw [mergedOf_trueChunk k hk, lonelyOf_trueChunk k hk, List.getD_cons_zero,
              List.cons_append]
            have hrhs : mergeLinkedTop (s :: segs2)
                (List.replicate k true ++ false :: L3) =
                (s.1, ((s :: segs2).getD k (0, 0)).2)
                  :: mergeLinkedTop (segs2.drop k) L3 := by
              show mergeLinkedGo s segs2 (List.replicate k true ++ false :: L3) = _
              rw [mergeLinkedGo_trueChunk k s segs2 L3 hklt]
            rw [hrhs, List.drop_succ_cons]
            refine List.Perm.cons _ ?_
            apply ih L3 ?_ (segs2.drop k) ?_
            · rw [hlenL] at hle
              omega
            · rw [List.length_drop]
              omega

theorem merged_lonely_perm (L : List Bool) (segs : List (ℕ × ℕ))
    (hlen : segs.length = L.length + 1) :
    (mergedOf segs L ++ lonelyOf segs L).Perm (mergeLinkedTop segs L) :=
  merged_lonely_perm_aux L.length L (Nat.le_refl _) segs hlen

/-! ### Sortedness of the merged output -/

theorem mergeLinkedGo_sorted :
    ∀ (segs : List (ℕ × ℕ)) (L : List Bool) (cur : ℕ × ℕ),
      (∀ x ∈ segs, cur.1 < x.1) →
      List.Pairwise (fun a b : ℕ × ℕ => a.1 < b.1) segs →
      List.Pairwise (fun a b : ℕ × ℕ => a.1 < b.1) (mergeLinkedGo cur segs L) ∧
        ∀ y ∈ mergeLinkedGo cur segs L, cur.1 ≤ y.1 := by
  intro segs
  induction segs with
  | nil =>
    intro L cur _ _
    constructor
    · simp [mergeLinkedGo]
    · simp [mergeLinkedGo]
  | cons r rest ih =>
    intro L cur hlt hpw
    cases L with
    | nil =>
      constructor
      · simp [mergeLinkedGo]
      · simp [mergeLinkedGo]
    | cons link links =>
      obtain ⟨hr_rest, hpw_rest⟩ := List.pairwise_cons.mp hpw
      cases link with
      | true =>
        show List.Pairwise _ (mergeLinkedGo (cur.1, r.2) rest links) ∧
          ∀ y ∈ mergeLinkedGo (cur.1, r.2) rest links, cur.1 ≤ y.1
        have h := ih links (cur.1, r.2)
          (fun x hx => hlt x (List.mem_cons_of_mem r hx)) hpw_rest
        exact ⟨h.1, h.2⟩
      | false =>
        show List.Pairwise _ (cur :: mergeLinkedGo r rest links) ∧
          ∀ y ∈ cur :: mergeLinkedGo r rest links, cur.1 ≤ y.1
        have h := ih links r hr_rest hpw_rest
        have hcur_r : cur.1 < r.1 := hlt r (List.mem_cons_self r rest)
        constructor
        · refine List.pairwise_cons.mpr ⟨?_, h.1⟩
          intro y hy
          exact Nat.lt_of_lt_of_le hcur_r (h.2 y hy)
        · intro y hy
          rcases List.mem_cons.mp hy with rfl | hy2
          · exact Nat.le_refl _
          · exact Nat.le_of_lt (Nat.lt_of_lt_of_le hcur_r (h.2 y hy2))

theorem chain_strengthen :
    ∀ l : List (ℕ × ℕ), (∀ r ∈ l, r.1 < r.2) →
      List.Chain' (fun a b : ℕ × ℕ => a.2 < b.1) l →
      List.Chain' (fun a b : ℕ × ℕ => a.2 < b.1 ∧ a.1 < b.1) l := by
  intro l
  induction l with
  | nil => intro _ _; exact List.chain'_nil
  | cons a t ih =>
    intro hv hc
    cases t with
    | nil => exact List.chain'_singleton a
    | cons b t2 =>
      obtain ⟨hab, hrest⟩ := List.chain'_cons.mp hc
      refine List.chain'_cons.mpr ⟨⟨hab, ?_⟩, ?_⟩
      · exact Nat.lt_trans (hv a (List.mem_cons_self a _)) hab
      · exact ih (fun r hr => hv r (List.mem_cons_of_mem a hr)) hrest

theorem pairwise_ltkey_of_runs (l : List (ℕ × ℕ))
    (hv : ∀ r ∈ l, r.1 < r.2)
    (hc : List.Chain' (fun a b : ℕ × ℕ => a.2 < b.1) l) :
    List.Pairwise (fun a b : ℕ × ℕ => a.1 < b.1) l := by
  have hW := chain_strengthen l hv hc
  haveI : IsTrans (ℕ × ℕ) (fun a b : ℕ × ℕ => a.2 < b.1 ∧ a.1 < b.1) :=
    ⟨fun a b c hab hbc => ⟨Nat.lt_trans hab.1 hbc.2, Nat.lt_trans hab.2 hbc.2⟩⟩
  have hpw := List.chain'_iff_pairwise.mp hW
  exact hpw.imp (fun h => h.2)

theorem sorted_perm_unique (l₁ l₂ : List (ℕ × ℕ)) (hperm : l₁.Perm l₂)
    (h₁ : List.Pairwise (fun a b : ℕ × ℕ => a.1 < b.1) l₁)
    (h₂ : List.Pairwise (fun a b : ℕ × ℕ => a.1 < b.1) l₂) : l₁ = l₂ := by
  haveI : IsAntisymm (ℕ × ℕ) (fun a b : ℕ × ℕ => a.1 < b.1) :=
    ⟨fun a b h1 h2 => absurd (Nat.lt_trans h1 h2) (Nat.lt_irrefl _)⟩
  exact List.eq_of_perm_of_sorted hperm h₁ h₂

/-! ### Link-vector merging equals gap-based merging -/

theorem segLinks_cons_eq (tol : ℕ) (rest : List (ℕ × ℕ)) (a b : ℕ × ℕ)
    (h : a.2 = b.2) : segLinks (a :: rest) tol = segLinks (b :: rest) tol := by
  cases rest with
  | nil => rfl
  | cons r t =>
    show (decide (r.1 < a.2 + tol)) :: _ = (decide (r.1 < b.2 + tol)) :: _
    rw [h]

theorem mergeLinked_eq_mergeRuns_go (tol : ℕ) :
    ∀ (rest : List (ℕ × ℕ)) (cur : ℕ × ℕ),
      List.Chain' (fun a b : ℕ × ℕ => a.2 ≤ b.1) (cur :: rest) →
      mergeLinkedGo cur rest (segLinks (cur :: rest) tol) =
        mergeRunsGo tol cur rest := by
  intro rest
  induction rest with
  | nil => intro cur _; rfl
  | cons r rest2 ih =>
    intro cur hchain
    obtain ⟨hc, hrest⟩ := List.chain'_cons.mp hchain
    show mergeLinkedGo cur (r :: rest2)
      (decide (r.1 < cur.2 + tol) :: segLinks (r :: rest2) tol) = _
    by_cases hmerge : r.1 < cur.2 + tol
    · rw [show (decide (r.1 < cur.2 + tol)) = true from decide_eq_true hmerge]
      show mergeLinkedGo (cur.1, r.2) rest2 (segLinks (r :: rest2) tol) = _
      rw [segLinks_cons_eq tol rest2 r (cur.1, r.2) rfl]
      have hchain2 : List.Chain' (fun a b : ℕ × ℕ => a.2 ≤ b.1)
          ((cur.1, r.2) :: rest2) := by
        cases rest2 with
        | nil => exact List.chain'_singleton _
        | cons x t =>
          obtain ⟨hrx, ht⟩ := List.chain'_cons.mp hrest
          exact List.chain'_cons.mpr ⟨hrx, ht⟩
      rw [ih (cur.1, r.2) hchain2]
      show _ = mergeRunsGo tol cur (r :: rest2)
      rw [show mergeRunsGo tol cur (r :: rest2) =
          if r.1 - cur.2 < tol then mergeRunsGo tol (cur.1, r.2) rest2
          else cur :: mergeRunsGo tol r rest2 from rfl]
      rw [if_pos (by omega)]
    · rw [show (decide (r.1 < cur.2 + tol)) = false from decide_eq_false hmerge]
      show cur :: mergeLinkedGo r rest2 (segLinks (r :: rest2) tol) = _
      rw [ih r hrest]
      rw [show mergeRunsGo tol cur (r :: rest2) =
          if r.1 - cur.2 < tol then mergeRunsGo tol (cur.1, r.2) rest2
          else cur :: mergeRunsGo tol r rest2 from rfl]
      rw [if_neg (by omega)]

theorem mergeLinkedTop_eq_mergeRuns (tol : ℕ) (segs : List (ℕ × ℕ))
    (hchain : List.Chain' (fun a b : ℕ × ℕ => a.2 ≤ b.1) segs) :
    mergeLinkedTop segs (segLinks segs tol) = mergeRuns tol segs := by
  cases segs with
  | nil => rfl
  | cons r rest =>
    show mergeLinkedGo r rest (segLinks (r :: rest) tol) = mergeRunsGo tol r rest
    exact mergeLinked_eq_mergeRuns_go tol rest r hchain

/-! ### Output invariants of the gap-based merger -/

theorem mergeRunsGo_chain (tol : ℕ) :
    ∀ (rest : List (ℕ × ℕ)) (cur : ℕ × ℕ),
      (∀ x ∈ cur :: rest, x.1 < x.2) →
      List.Chain' (fun a b : ℕ × ℕ => a.2 < b.1) (cur :: rest) →
      List.Chain' (fun a b : ℕ × ℕ => a.2 + tol ≤ b.1 ∧ a.1 < b.1)
          (mergeRunsGo tol cur rest) ∧
        ∀ y ∈ mergeRunsGo tol cur rest, cur.1 ≤ y.1 := by
  intro rest
  induction rest with
  | nil =>
    intro cur _ _
    constructor
    · exact List.chain'_singleton cur
    · intro y hy
      rcases List.mem_singleton.mp hy with rfl
      exact Nat.le_refl _
  | cons r rest2 ih =>
    intro cur hv hchain
    obtain ⟨hc, hrest⟩ := List.chain'_cons.mp hchain
    have hvc : cur.1 < cur.2 := hv cur (List.mem_cons_self _ _)
    have hvr : r.1 < r.2 := hv r (List.mem_cons_of_mem _ (List.mem_cons_self _ _))
    have hgo : mergeRunsGo tol cur (r :: rest2) =
        if r.1 - cur.2 < tol then mergeRunsGo tol (cur.1, r.2) rest2
        else cur :: mergeRunsGo tol r rest2 := rfl
    rw [hgo]
    by_cases hmerge : r.1 - cur.2 < tol
    · rw [if_pos hmerge]
      have hv2 : ∀ x ∈ (cur.1, r.2) :: rest2, x.1 < x.2 := by
        intro x hx
        rcases List.mem_cons.mp hx with rfl | hx2
        · show cur.1 < r.2
          omega
        · exact hv x (List.mem_cons_of_mem _ (List.mem_cons_of_mem _ hx2))
      have hchain2 : List.Chain' (fun a b : ℕ × ℕ => a.2 < b.1)
          ((cur.1, r.2) :: rest2) := by
        cases rest2 with
        | nil => exact List.chain'_singleton _
        | cons x t =>
          obtain ⟨hrx, ht⟩ := List.chain'_cons.mp hrest
          exact List.chain'_cons.mpr ⟨hrx, ht⟩
      have h := ih (cur.1, r.2) hv2 hchain2
      exact ⟨h.1, fun y hy => h.2 y hy⟩
    · rw [if_neg hmerge]
      have h := ih r (fun x hx => hv x (List.mem_cons_of_mem _ hx)) hrest
      constructor
      · refine List.chain'_cons'.mpr ⟨?_, h.1⟩
        intro y hy
        have hym := List.mem_of_mem_head? hy
        have hyb := h.2 y hym
        constructor
        · omega
        · omega
      · intro y hy
        rcases List.mem_cons.mp hy with rfl | hy2
        · exact Nat.le_refl _
        · have := h.2 y hy2
          omega

theorem mergeRuns_chain (tol : ℕ) (segs : List (ℕ × ℕ))
    (hv : ∀ x ∈ segs, x.1 < x.2)
    (hchain : List.Chain' (fun a b : ℕ × ℕ => a.2 < b.1) segs) :
    List.Chain' (fun a b : ℕ × ℕ => a.2 + tol ≤ b.1 ∧ a.1 < b.1)
      (mergeRuns tol segs) := by
  cases segs with
  | nil => exact List.chain'_nil
  | cons r rest =>
    exact (mergeRunsGo_chain tol rest r hv hchain).1

/-! ### Assembling the literal pipeline -/

theorem length_segLinks (segs : List (ℕ × ℕ)) (tol : ℕ) :
    (segLinks segs tol).length = segs.length - 1 := by
  unfold segLinks
  rw [List.length_zipWith, List.length_tail]
  omega

theorem length_npdiff_pad (L : List Bool) :
    (npdiff ((0 : ℤ) :: toBin L ++ [0])).length = L.length + 1 := by
  unfold npdiff toBin
  rw [List.length_zipWith, List.length_tail]
  simp

theorem locLookup_eq_getD (segs : List (ℕ × ℕ)) :
    ∀ idxs : List ℕ, (∀ i ∈ idxs, i < segs.length) →
      locLookup segs idxs = some (idxs.map (fun i => segs.getD i (0, 0))) := by
  intro idxs
  induction idxs with
  | nil => intro _; rfl
  | cons i t ih =>
    intro h
    have hi : i < segs.length := h i (List.mem_cons_self _ _)
    have hsome : segs.get? i = some (segs.getD i (0, 0)) := by
      rw [List.get?_eq_getElem?, List.getElem?_eq_getElem hi,
        List.getD_eq_getElem?_getD, List.getElem?_eq_getElem hi]
      rfl
    have hrec := ih (fun j hj => h j (List.mem_cons_of_mem i hj))
    unfold locLookup at hrec ⊢
    rw [List.mapM_cons, hsome, hrec]
    rfl

theorem rises_eq_starts_raw (L : List Bool) :
    whereEq (npdiff ((0 : ℤ) :: toBin L ++ [0])) 1 = (maximalRuns L).map Prod.fst :=
  rises_eq_starts L

theorem falls_eq_stops_raw (L : List Bool) :
    whereEq (npdiff ((0 : ℤ) :: toBin L ++ [0])) (-1) =
      (maximalRuns L).map Prod.snd :=
  falls_eq_stops L

theorem find_intervals_samples_eq (v : List Bool) (tol : ℕ) (hv : true ∈ v) :
    find_intervals_samples v tol =
      some (List.insertionSort (fun a b : ℕ × ℕ => a.1 ≤ b.1)
        (mergedOf (maximalRuns v) (segLinks (maximalRuns v) tol)
          ++ lonelyOf (maximalRuns v) (segLinks (maximalRuns v) tol))) := by
  have hne : maximalRuns v ≠ [] := maximalRuns_ne_nil hv
  have hpos : 1 ≤ (maximalRuns v).length := List.length_pos.mpr hne
  have hlenL : (segLinks (maximalRuns v) tol).length = (maximalRuns v).length - 1 :=
    length_segLinks _ tol
  have hb0 : ∀ i ∈ whereEq (npdiff ((0 : ℤ) ::
      toBin (segLinks (maximalRuns v) tol) ++ [0])) 1,
      i < (maximalRuns v).length := by
    intro i hi
    have hlt := mem_whereEq_lt_length hi
    rw [length_npdiff_pad] at hlt
    omega
  have hb1 : ∀ i ∈ whereEq (npdiff ((0 : ℤ) ::
      toBin (segLinks (maximalRuns v) tol) ++ [0])) (-1),
      i < (maximalRuns v).length := by
    intro i hi
    have hlt := mem_whereEq_lt_length hi
    rw [length_npdiff_pad] at hlt
    omega
  have hb3 : ∀ i ∈ (whereEq ((0 : ℤ) ::
        toBin (segLinks (maximalRuns v) tol) ++ [0]).tail 0).filter
      (fun i => decide (i ∉ whereEq (npdiff ((0 : ℤ) ::
        toBin (segLinks (maximalRuns v) tol) ++ [0])) (-1))),
      i < (maximalRuns v).length := by
    intro i hi
    have hmem := List.mem_of_mem_filter hi
    have hmem2 : i ∈ whereEq (toBin (segLinks (maximalRuns v) tol) ++ [0]) 0 := hmem
    have hlt := mem_whereEq_lt_length hmem2
    have hlen2 : (toBin (segLinks (maximalRuns v) tol) ++ [(0 : ℤ)]).length =
        (segLinks (maximalRuns v) tol).length + 1 := by
      simp [toBin]
    rw [hlen2] at hlt
    omega
  have hA := locLookup_eq_getD (maximalRuns v) _ hb0
  have hB := locLookup_eq_getD (maximalRuns v) _ hb1
  have hC := locLookup_eq_getD (maximalRuns v) _ hb3
  unfold find_intervals_samples
  rw [findRuns_eq_maximalRuns]
  simp only [List.tail_cons]
  rw [hA, hB, hC]
  simp only [rises_eq_starts_raw, falls_eq_stops_raw, List.map_map, List.zip_map',
    List.tail_cons]
  rfl

/-! ### The main equivalence for the interval merger -/

theorem find_intervals_samples_spec (v : List Bool) (tol : ℕ) (hv : true ∈ v) :
    find_intervals_samples v tol = some (mergeRuns tol (maximalRuns v)) := by
  have hne : maximalRuns v ≠ [] := maximalRuns_ne_nil hv
  have hinv := maximalRuns_inv v
  have hpos : 1 ≤ (maximalRuns v).length := List.length_pos.mpr hne
  have hlenL : (maximalRuns v).length = (segLinks (maximalRuns v) tol).length + 1 := by
    rw [length_segLinks]
    omega
  have hperm1 := List.perm_insertionSort (fun a b : ℕ × ℕ => a.1 ≤ b.1)
    (mergedOf (maximalRuns v) (segLinks (maximalRuns v) tol)
      ++ lonelyOf (maximalRuns v) (segLinks (maximalRuns v) tol))
  have hperm2 := merged_lonely_perm (segLinks (maximalRuns v) tol) (maximalRuns v)
    hlenL
  have hperm := hperm1.trans hperm2
  have heq3 : mergeLinkedTop (maximalRuns v) (segLinks (maximalRuns v) tol) =
      mergeRuns tol (maximalRuns v) := by
    apply mergeLinkedTop_eq_mergeRuns
    exact hinv.2.imp (fun {a b} h => Nat.le_of_lt h)
  have hpwR : List.Pairwise (fun a b : ℕ × ℕ => a.1 < b.1)
      (mergeLinkedTop (maximalRuns v) (segLinks (maximalRuns v) tol)) := by
    have hpwsegs := pairwise_ltkey_of_runs (maximalRuns v) hinv.1 hinv.2
    cases hsegs : maximalRuns v with
    | nil => exact absurd hsegs hne
    | cons s rest =>
      rw [hsegs] at hpwsegs
      obtain ⟨hs_rest, hpw_rest⟩ := List.pairwise_cons.mp hpwsegs
      exact (mergeLinkedGo_sorted rest _ s hs_rest hpw_rest).1
  have hpwL : List.Pairwise (fun a b : ℕ × ℕ => a.1 < b.1)
      (List.insertionSort (fun a b : ℕ × ℕ => a.1 ≤ b.1)
        (mergedOf (maximalRuns v) (segLinks (maximalRuns v) tol)
          ++ lonelyOf (maximalRuns v) (segLinks (maximalRuns v) tol))) := by
    haveI : IsTotal (ℕ × ℕ) (fun a b : ℕ × ℕ => a.1 ≤ b.1) :=
      ⟨fun a b => Nat.le_total a.1 b.1⟩
    haveI : IsTrans (ℕ × ℕ) (fun a b : ℕ × ℕ => a.1 ≤ b.1) :=
      ⟨fun _ _ _ h1 h2 => Nat.le_trans h1 h2⟩
    have hle : List.Pairwise (fun a b : ℕ × ℕ => a.1 ≤ b.1)
        (List.insertionSort (fun a b : ℕ × ℕ => a.1 ≤ b.1)
          (mergedOf (maximalRuns v) (segLinks (maximalRuns v) tol)
            ++ lonelyOf (maximalRuns v) (segLinks (maximalRuns v) tol))) :=
      List.sorted_insertionSort (fun a b : ℕ × ℕ => a.1 ≤ b.1) _
    have hne2 : List.Pairwise (fun a b : ℕ × ℕ => a.1 ≠ b.1)
        (List.insertionSort (fun a b : ℕ × ℕ => a.1 ≤ b.1)
          (mergedOf (maximalRuns v) (segLinks (maximalRuns v) tol)
            ++ lonelyOf (maximalRuns v) (segLinks (maximalRuns v) tol))) := by
      have hsym : ∀ {x y : ℕ × ℕ}, x.1 ≠ y.1 → y.1 ≠ x.1 :=
        fun h => Ne.symm h
      refine (List.Perm.pairwise_iff hsym hperm).mpr ?_
      exact hpwR.imp (fun {a b} h => Nat.ne_of_lt h)
    exact (hle.and hne2).imp (fun {a b} h => Nat.lt_of_le_of_ne h.1 h.2)
  have heq : List.insertionSort (fun a b : ℕ × ℕ => a.1 ≤ b.1)
      (mergedOf (maximalRuns v) (segLinks (maximalRuns v) tol)
        ++ lonelyOf (maximalRuns v) (segLinks (maximalRuns v) tol)) =
      mergeLinkedTop (maximalRuns v) (segLinks (maximalRuns v) tol) :=
    sorted_perm_unique _ _ hperm hpwL hpwR
  rw [find_intervals_samples_eq v tol hv, heq, heq3]

theorem scale_down_spec (dmin dmax : ℚ) : ∀ p : ℕ,
    scale_down dmin dmax p = 0 ∨
      check_int32_dynamic_range dmin dmax ((10 : ℚ) ^ scale_down dmin dmax p) = true := by
  intro p
  induction p with
  | zero => exact Or.inl rfl
  | succ p ih =>
    rw [show scale_down dmin dmax (p + 1) =
        if check_int32_dynamic_range dmin dmax (10 ^ (p + 1)) then p + 1
        else scale_down dmin dmax p from rfl]
    by_cases h : check_int32_dynamic_range dmin dmax (10 ^ (p + 1)) = true
    · rw [if_pos h]
      exact Or.inr h
    · rw [if_neg h]
      exact ih

/-! ### Small evaluation lemmas for the quantization pipeline -/

theorem roundHalfEven_zero : roundHalfEven 0 = 0 := by
  unfold roundHalfEven
  norm_num

theorem np_round_zero (d : ℤ) : np_round 0 d = 0 := by
  unfold np_round
  rw [zero_mul, roundHalfEven_zero]
  simp

theorem ratTrunc_zero : ratTrunc 0 = 0 := by
  unfold ratTrunc
  norm_num

theorem int32cast_zero : int32cast 0 = 0 := by decide

theorem convert_gap_elem (data : List (Option ℚ)) (precision : ℚ) (i : ℕ)
    (hgap : data.get? i = some none) :
    (convert_data_to_int32 data (some precision)).get? i = some 0 := by
  unfold convert_data_to_int32
  rw [List.get?_eq_getElem?] at hgap ⊢
  rw [List.getElem?_map, List.getElem?_map, List.getElem?_map, hgap]
  simp only [Option.map_some']
  rw [show (none : Option ℚ).getD 0 = 0 from rfl]
  rw [np_round_zero, mul_zero, ratTrunc_zero, int32cast_zero]

/-! ### Claim theorems -/

/-- C4: `check_int32_dynamic_range` returns `False` if and only if the
scaled minimum is below the `int32` minimum AND the scaled maximum is
above the `int32` maximum; in particular a single-sided overflow still
returns `True`. -/
theorem check_int32_dynamic_range_false_iff (x_min x_max alpha : ℚ) :
    check_int32_dynamic_range x_min x_max alpha = false ↔
      (x_min * alpha < (int32_min : ℚ) ∧ (int32_max : ℚ) < x_max * alpha) := by
  unfold check_int32_dynamic_range
  split <;> simp_all

/-- C5: the precision returned by `infer_conversion_factor` satisfies the
`int32` dynamic-range check against the buffer's own min/max, unless it is
`0` (the decrement loop cannot go below zero).  The two loops themselves
(scale up while the mean of absolute differences is below 1000 and
nonzero, then scale down while the check fails and the precision is
positive) are the definitions `scale_up`/`scale_down` used by
`infer_conversion_factor`. -/
theorem infer_conversion_factor_respects_range (data : List (Option ℚ))
    (dmin dmax : ℚ) (hmin : nanmin data = some dmin)
    (hmax : nanmax data = some dmax) :
    infer_conversion_factor data = 0 ∨
      check_int32_dynamic_range dmin dmax
        ((10 : ℚ) ^ infer_conversion_factor data) = true := by
  unfold infer_conversion_factor
  rw [hmin, hmax]
  exact scale_down_spec dmin dmax _

/-- Witness for C5 at the one-sample buffer `[0]`. -/
theorem infer_conversion_factor_respects_range_witness :
    nanmin [some 0] = some 0 ∧ nanmax [some 0] = some 0 ∧
      (infer_conversion_factor [some 0] = 0 ∨
        check_int32_dynamic_range 0 0
          ((10 : ℚ) ^ infer_conversion_factor [some 0]) = true) :=
  ⟨rfl, rfl, infer_conversion_factor_respects_range [some 0] 0 0 rfl rfl⟩

/-- C7: an invalid `precision` (negative or non-integral) is not an error
in `convert_data_to_int32`: it is normalized to 0 and the conversion
proceeds; and NaN gap positions are zero-filled before rounding, so the
corresponding output samples are exactly 0. -/
theorem convert_data_to_int32_invalid_precision (data : List (Option ℚ))
    (pr : ℚ) (hpr : pr < 0 ∨ pr.den ≠ 1) :
    convert_data_to_int32 data (some pr) = convert_data_to_int32 data (some 0) ∧
      ∀ i : ℕ, data.get? i = some none →
        (convert_data_to_int32 data (some pr)).get? i = some 0 := by
  constructor
  · unfold convert_data_to_int32
    dsimp only
    rw [if_pos hpr, if_neg (by simp [Rat.den_zero])]
    simp [Rat.num_zero]
  · intro i hi
    exact convert_gap_elem data pr i hi

/-- Witness for C7 at `precision = -1` on the buffer `[NaN, 1]`. -/
theorem convert_data_to_int32_invalid_precision_witness :
    ((-1 : ℚ) < 0 ∨ ((-1 : ℚ)).den ≠ 1) ∧
      (convert_data_to_int32 [none, some 1] (some (-1)) =
          convert_data_to_int32 [none, some 1] (some 0) ∧
        ∀ i : ℕ, ([none, some 1] : List (Option ℚ)).get? i = some none →
          (convert_data_to_int32 [none, some 1] (some (-1))).get? i = some 0) :=
  ⟨Or.inl (by norm_num),
    convert_data_to_int32_invalid_precision [none, some 1] (-1)
      (Or.inl (by norm_num))⟩

/-- C10: `convert_data_to_int32` operates on a copy of the caller's
buffer (`data = data.copy()`), so the caller's array — NaNs included — is
unchanged by the call, and the returned samples are those of
`convert_data_to_int32`. -/
theorem convert_data_to_int32_preserves_caller_buffer
    (data : List (Option ℚ)) (precision : Option ℚ) :
    (convert_data_to_int32_with_buffer data precision).2 = data ∧
      (convert_data_to_int32_with_buffer data precision).1 =
        convert_data_to_int32 data precision :=
  ⟨rfl, rfl⟩

/-- C1 (amended): for every validity vector with at least one valid
sample, the intervals returned by `find_intervals_binary_vector` (sample
part) are exactly the maximal runs of valid samples merged wherever the
gap between adjacent runs is STRICTLY SMALLER than the tolerance (runs
with gap ≥ tolerance stay distinct), and the output is sorted by start
offset, pairwise non-overlapping, with gaps of at least the tolerance
between consecutive intervals.  (An all-gap vector raises instead of
returning an empty list — see C2.) -/
theorem find_intervals_merges_iff_gap_lt (v : List Bool) (tol : ℕ)
    (hv : true ∈ v) :
    find_intervals_samples v tol = some (mergeRuns tol (maximalRuns v)) ∧
      List.Chain' (fun a b : ℕ × ℕ => a.2 + tol ≤ b.1 ∧ a.1 < b.1)
        (mergeRuns tol (maximalRuns v)) :=
  ⟨find_intervals_samples_spec v tol hv,
    mergeRuns_chain tol (maximalRuns v) (maximalRuns_inv v).1
      (maximalRuns_inv v).2⟩

/-- Counterexample to C1 as stated: with tolerance 1 and a gap of exactly
1 sample (`[1,0,1]`), the code does NOT merge (it keeps two intervals),
while merging at gap ≤ tolerance would produce one interval `[0,3)`. -/
theorem find_intervals_gap_le_counterexample :
    find_intervals_samples [true, false, true] 1 = some [(0, 1), (2, 3)] ∧
      mergeRunsClaim 1 (maximalRuns [true, false, true]) = [(0, 3)] ∧
      find_intervals_samples [true, false, true] 1 ≠
        some (mergeRunsClaim 1 (maximalRuns [true, false, true])) := by decide

/-- Witness for C1 on `[1,0,0,1]` with tolerance 3 (gap 2 < 3 merges). -/
theorem find_intervals_merges_iff_gap_lt_witness :
    true ∈ [true, false, false, true] ∧
      (find_intervals_samples [true, false, false, true] 3 =
          some (mergeRuns 3 (maximalRuns [true, false, false, true])) ∧
        List.Chain' (fun a b : ℕ × ℕ => a.2 + 3 ≤ b.1 ∧ a.1 < b.1)
          (mergeRuns 3 (maximalRuns [true, false, false, true]))) :=
  ⟨by decide, find_intervals_merges_iff_gap_lt [true, false, false, true] 3
    (by decide)⟩

/-- C2: evaluation of `find_intervals_binary_vector` at an all-valid and
at an all-gap buffer (fs = 1 Hz, `start_uutc` = 0, tolerance 1 sample).
The all-valid buffer yields the single whole-buffer interval; the all-gap
buffer does NOT return an empty list — the source raises `KeyError`
(`segments.loc[t_noverlap]` with `t_noverlap = [0]` on an empty frame),
modelled as `none`. -/
theorem find_intervals_all_valid_all_gap_eval :
    find_intervals_binary_vector (List.replicate 3 true) 1 0 (some 1) =
        some [⟨0, 3, 0, 3000000⟩] ∧
      find_intervals_binary_vector (List.replicate 3 false) 1 0 (some 1) = none := by
  constructor
  · have h : find_intervals_samples (List.replicate 3 true) 1 = some [(0, 3)] := by
      decide
    unfold find_intervals_binary_vector
    dsimp only
    rw [h]
    simp only [Option.map_some', List.map_cons, List.map_nil, Option.some.injEq]
    have h0 : ratTrunc (((0 : ℕ) : ℚ) / 1 * 1000000 + ((0 : ℤ) : ℚ)) = 0 := by
      norm_num [ratTrunc]
    have h3 : ratTrunc (((3 : ℕ) : ℚ) / 1 * 1000000 + ((0 : ℤ) : ℚ)) = 3000000 := by
      norm_num [ratTrunc]
    rw [h0, h3]
  · have h : find_intervals_samples (List.replicate 3 false) 1 = none := by decide
    unfold find_intervals_binary_vector
    dsimp only
    rw [h]
    rfl

theorem ratTrunc_nonneg (q : ℚ) (hq : 0 ≤ q) : ratTrunc q = ⌊q⌋ := by
  unfold ratTrunc
  rw [if_pos hq]

/-- C9 (amended): each interval's derived timestamps are
`start_uutc + ⌊offset / fs * 1e6⌋` — the `int64` cast TRUNCATES the
fractional microsecond (here `start_uutc ≥ 0`, so truncation toward zero
is the floor), it does not round to the nearest microsecond. -/
theorem find_intervals_uutc_trunc (v : List Bool) (fs : ℚ) (start_uutc : ℤ)
    (tol : Option ℕ) (out : List IntervalRow) (hfs : 0 < fs)
    (hstart : 0 ≤ start_uutc)
    (hout : find_intervals_binary_vector v fs start_uutc tol = some out) :
    ∀ r ∈ out,
      r.start_uutc = start_uutc + ⌊((r.start_samples : ℚ)) * 1000000 / fs⌋ ∧
      r.stop_uutc = start_uutc + ⌊((r.stop_samples : ℚ)) * 1000000 / fs⌋ := by
  unfold find_intervals_binary_vector at hout
  dsimp only at hout
  obtain ⟨rows, hrows, hmap⟩ := Option.map_eq_some'.mp hout
  intro r hr
  rw [← hmap] at hr
  obtain ⟨p, _, rfl⟩ := List.mem_map.mp hr
  have key : ∀ a : ℕ, ratTrunc ((a : ℚ) / fs * 1000000 + (start_uutc : ℚ)) =
      start_uutc + ⌊(a : ℚ) * 1000000 / fs⌋ := by
    intro a
    have hnn : (0 : ℚ) ≤ (a : ℚ) / fs * 1000000 + (start_uutc : ℚ) := by
      have h1 : (0 : ℚ) ≤ (a : ℚ) / fs * 1000000 := by positivity
      have h2 : (0 : ℚ) ≤ (start_uutc : ℚ) := by exact_mod_cast hstart
      linarith
    rw [ratTrunc_nonneg _ hnn, Int.floor_add_int]
    rw [show (a : ℚ) / fs * 1000000 = (a : ℚ) * 1000000 / fs by ring]
    omega
  exact ⟨key p.1, key p.2⟩

/-- Witness for C9 at `v = [1,1]`, `fs = 3`, `start_uutc = 0`. -/
theorem find_intervals_uutc_trunc_witness :
    (0 : ℚ) < 3 ∧ (0 : ℤ) ≤ 0 ∧
      find_intervals_binary_vector [true, true] 3 0 (some 2) =
        some [⟨0, 2, 0, 666666⟩] ∧
      ∀ r ∈ [(⟨0, 2, 0, 666666⟩ : IntervalRow)],
        r.start_uutc = 0 + ⌊((r.start_samples : ℚ)) * 1000000 / 3⌋ ∧
        r.stop_uutc = 0 + ⌊((r.stop_samples : ℚ)) * 1000000 / 3⌋ := by
  have hout : find_intervals_binary_vector [true, true] 3 0 (some 2) =
      some [⟨0, 2, 0, 666666⟩] := by
    have h : find_intervals_samples [true, true] 2 = some [(0, 2)] := by decide
    unfold find_intervals_binary_vector
    dsimp only
    rw [h]
    simp only [Option.map_some', List.map_cons, List.map_nil, Option.some.injEq]
    have h0 : ratTrunc (((0 : ℕ) : ℚ) / 3 * 1000000 + ((0 : ℤ) : ℚ)) = 0 := by
      norm_num [ratTrunc]
    have h2 : ratTrunc (((2 : ℕ) : ℚ) / 3 * 1000000 + ((0 : ℤ) : ℚ)) = 666666 := by
      norm_num [ratTrunc]
    rw [h0, h2]
  exact ⟨by norm_num, le_refl 0, hout,
    find_intervals_uutc_trunc [true, true] 3 0 (some 2) _ (by norm_num)
      (le_refl 0) hout⟩

/-- Counterexample to C9 as stated: at `v = [1,1]`, `fs = 3`,
`start_uutc = 0` the stored stop timestamp is 666666 (truncation of
666666.67), while rounding to the nearest microsecond would give 666667. -/
theorem find_intervals_uutc_round_counterexample :
    ∃ out, find_intervals_binary_vector [true, true] 3 0 (some 2) = some out ∧
      ¬ (∀ r ∈ out,
        r.start_uutc = 0 + round (((r.start_samples : ℚ)) / 3 * 1000000) ∧
        r.stop_uutc = 0 + round (((r.stop_samples : ℚ)) / 3 * 1000000)) := by
  refine ⟨[⟨0, 2, 0, 666666⟩], ?_, ?_⟩
  · have h : find_intervals_samples [true, true] 2 = some [(0, 2)] := by decide
    unfold find_intervals_binary_vector
    dsimp only
    rw [h]
    simp only [Option.map_some', List.map_cons, List.map_nil, Option.some.injEq]
    have h0 : ratTrunc (((0 : ℕ) : ℚ) / 3 * 1000000 + ((0 : ℤ) : ℚ)) = 0 := by
      norm_num [ratTrunc]
    have h2 : ratTrunc (((2 : ℕ) : ℚ) / 3 * 1000000 + ((0 : ℤ) : ℚ)) = 666666 := by
      norm_num [ratTrunc]
    rw [h0, h2]
  · intro hall
    have h := (hall ⟨0, 2, 0, 666666⟩ (List.mem_singleton.mpr rfl)).2
    have hr : round (((2 : ℕ) : ℚ) / 3 * 1000000) = 666667 := by
      norm_num [round_eq]
    rw [hr] at h
    norm_num at h

/-! ### Round-trip bounds for the quantizer -/

theorem abs_roundHalfEven_sub_le (q : ℚ) : |(roundHalfEven q : ℚ) - q| ≤ 1/2 := by
  have h0 : (0 : ℚ) ≤ q - ⌊q⌋ := by
    have := Int.floor_le q
    linarith
  have h1 : q - ⌊q⌋ < 1 := by
    have := Int.lt_floor_add_one q
    linarith
  unfold roundHalfEven
  split_ifs with hc1 hc2 hc3
  · refine abs_le.mpr ⟨by linarith, by linarith⟩
  · refine abs_le.mpr ⟨by push_cast; linarith, by push_cast; linarith⟩
  · have heq : q - ⌊q⌋ = 1/2 := le_antisymm (not_lt.mp hc2) (not_lt.mp hc1)
    refine abs_le.mpr ⟨by linarith, by linarith⟩
  · have heq : q - ⌊q⌋ = 1/2 := le_antisymm (not_lt.mp hc2) (not_lt.mp hc1)
    refine abs_le.mpr ⟨by push_cast; linarith, by push_cast; linarith⟩

theorem ratTrunc_intCast (n : ℤ) : ratTrunc ((n : ℚ)) = n := by
  unfold ratTrunc
  split <;> simp

theorem int32cast_eq_self {z : ℤ} (h1 : int32_min ≤ z) (h2 : z ≤ int32_max) :
    int32cast z = z := by
  unfold int32_min at h1
  unfold int32_max at h2
  unfold int32cast
  omega

theorem convert_natPrec (data : List (Option ℚ)) (p : ℕ) :
    convert_data_to_int32 data (some ((p : ℕ) : ℚ)) =
      data.map (fun x =>
        int32cast (ratTrunc ((10 ^ p : ℚ) * np_round (x.getD 0) (p : ℤ)))) := by
  unfold convert_data_to_int32
  dsimp only
  rw [if_neg (by simp [Rat.den_natCast])]
  rw [List.map_map, List.map_map]
  simp [Rat.num_natCast, Function.comp]

theorem elem_roundtrip_bound (q : ℚ) (p : ℕ)
    (hlo : int32_min ≤ roundHalfEven (q * 10 ^ p))
    (hhi : roundHalfEven (q * 10 ^ p) ≤ int32_max) :
    |(1/10 : ℚ) ^ ((p : ℤ)) *
        (int32cast (ratTrunc ((10 ^ p : ℚ) * np_round q (p : ℤ))) : ℚ) - q| ≤
      (1/10 : ℚ) ^ ((p : ℤ) - 1) := by
  have hA : (0 : ℚ) < (10 : ℚ) ^ p := by positivity
  have hA0 : ((10 : ℚ) ^ p) ≠ 0 := ne_of_gt hA
  have hz : (10 ^ p : ℚ) * np_round q (p : ℤ) = (roundHalfEven (q * 10 ^ p) : ℚ) := by
    unfold np_round
    rw [zpow_natCast]
    rw [mul_comm ((10 : ℚ) ^ p) _, div_mul_cancel₀ _ hA0]
  rw [hz, ratTrunc_intCast, int32cast_eq_self hlo hhi]
  have hinv : (1/10 : ℚ) ^ ((p : ℤ)) = ((10 : ℚ) ^ p)⁻¹ := by
    rw [one_div, inv_zpow, zpow_natCast]
  have hinv1 : (1/10 : ℚ) ^ ((p : ℤ) - 1) = ((10 : ℚ) ^ p)⁻¹ * 10 := by
    rw [one_div, inv_zpow, zpow_sub₀ (by norm_num : (10 : ℚ) ≠ 0), zpow_natCast]
    field_simp
  rw [hinv, hinv1]
  have hfact : ((10 : ℚ) ^ p)⁻¹ * (roundHalfEven (q * 10 ^ p) : ℚ) - q =
      ((10 : ℚ) ^ p)⁻¹ * ((roundHalfEven (q * 10 ^ p) : ℚ) - q * 10 ^ p) := by
    field_simp
    ring
  rw [hfact, abs_mul, abs_inv, abs_of_pos hA]
  have hbound := abs_roundHalfEven_sub_le (q * 10 ^ p)
  have hmono : ((10 : ℚ) ^ p)⁻¹ * |(roundHalfEven (q * 10 ^ p) : ℚ) - q * 10 ^ p| ≤
      ((10 : ℚ) ^ p)⁻¹ * (1/2) := by
    apply mul_le_mul_of_nonneg_left hbound
    positivity
  refine le_trans hmono ?_
  apply mul_le_mul_of_nonneg_left (by norm_num) (by positivity)

theorem zip_self_map {α β : Type} (h : α → β) :
    ∀ l : List α, l.zip (l.map h) = l.map (fun x => (x, h x))
  | [] => rfl
  | a :: t => by
    simp [zip_self_map h t]

/-- C8 (amended): for every buffer of finite floats and the inferred
precision `p`, PROVIDED every rounded scaled sample fits in the `int32`
range, quantizing at `p` and reconstructing as `value / 10^p` stays
within `10^-(p-1)` of the original at every position, and
`check_data_integrity` returns `True`.  Without the range proviso the
claim fails: the `int32` store wraps on overflow (see the
counterexample). -/
theorem roundtrip_within_tolerance (data : List (Option ℚ))
    (hfin : ∀ x ∈ data, x ≠ none)
    (p : ℕ) (_hp : p = infer_conversion_factor data)
    (hfit : ∀ x ∈ data, ∀ q : ℚ, x = some q →
      int32_min ≤ roundHalfEven (q * 10 ^ p) ∧
        roundHalfEven (q * 10 ^ p) ≤ int32_max) :
    (∀ (i : ℕ) (q : ℚ), data.get? i = some (some q) →
      ∃ z : ℤ, (convert_data_to_int32 data (some ((p : ℕ) : ℚ))).get? i = some z ∧
        |(1/10 : ℚ) ^ ((p : ℤ)) * (z : ℚ) - q| ≤ (1/10 : ℚ) ^ ((p : ℤ) - 1)) ∧
      check_data_integrity data (convert_data_to_int32 data (some ((p : ℕ) : ℚ)))
        (p : ℤ) = true := by
  constructor
  · intro i q hi
    have hmem : some q ∈ data := List.get?_mem hi
    rw [convert_natPrec]
    rw [List.get?_eq_getElem?] at hi ⊢
    rw [List.getElem?_map, hi]
    refine ⟨_, rfl, ?_⟩
    have hfitq := hfit (some q) hmem q rfl
    simpa using elem_roundtrip_bound q p hfitq.1 hfitq.2
  · unfold check_data_integrity npallclose
    dsimp only
    rw [decide_eq_true_eq]
    rw [convert_natPrec, List.map_map, zip_self_map, List.filterMap_map]
    rw [List.zip_map']
    simp only [Prod.mk.eta, List.map_id, List.map_id']
    intro pr hpr
    obtain ⟨x, hxmem, hgx⟩ := List.mem_filterMap.mp hpr
    simp only [Function.comp] at hgx
    cases x with
    | none => exact absurd rfl (hfin none hxmem)
    | some v =>
      simp only [Option.getD_some, Option.some.injEq] at hgx
      subst hgx
      dsimp only
      have hfitq := hfit (some v) hxmem v rfl
      have hb := elem_roundtrip_bound v p hfitq.1 hfitq.2
      have hnn : (0 : ℚ) ≤ 1/100000 * |v| := by positivity
      linarith

/-- C8 counterexample to the unamended claim: the buffer `[2147483648.0]`
contains only finite floats, its inferred precision is `0`, yet
`check_data_integrity` returns `False` after conversion, because the
`int32` store wraps `2147483648` to `-2147483648` (the one-sided
`check_int32_dynamic_range` does not catch a one-sided overflow). -/
theorem roundtrip_counterexample :
    (∀ x ∈ ([some 2147483648] : List (Option ℚ)), x ≠ none) ∧
      infer_conversion_factor [some 2147483648] = 0 ∧
      check_data_integrity [some 2147483648]
        (convert_data_to_int32 [some 2147483648]
          (some ((infer_conversion_factor [some 2147483648] : ℕ) : ℚ)))
        ((infer_conversion_factor [some 2147483648] : ℕ) : ℤ) = false := by
  have hinf : infer_conversion_factor [some 2147483648] = 0 := rfl
  refine ⟨?_, hinf, ?_⟩
  · intro x hx
    simp only [List.mem_singleton] at hx
    subst hx
    simp
  · rw [hinf]
    have hconv : convert_data_to_int32 [some 2147483648] (some ((0 : ℕ) : ℚ)) =
        [-2147483648] := by
      rw [convert_natPrec]
      simp only [List.map_cons, List.map_nil, Option.getD_some]
      have hr : np_round (2147483648 : ℚ) ((0 : ℕ) : ℤ) = 2147483648 := by
        unfold np_round roundHalfEven
        norm_num
      rw [hr]
      have ht : ratTrunc ((10 ^ (0 : ℕ) : ℚ) * 2147483648) = 2147483648 := by
        unfold ratTrunc
        norm_num
      rw [ht]
      have hc : int32cast 2147483648 = -2147483648 := by
        unfold int32cast
        decide
      rw [hc]
    rw [hconv]
    unfold check_data_integrity npallclose
    dsimp only
    rw [decide_eq_false_iff_not]
    intro hall
    have h := hall ((1/10 : ℚ) ^ ((0 : ℕ) : ℤ) * (Int.cast (-2147483648) : ℚ),
      (2147483648 : ℚ)) (by simp)
    norm_num at h

/-- Witness for the amended C8 theorem at the one-sample buffer `[2.0]`
with inferred precision `0`. -/
theorem roundtrip_within_tolerance_witness :
    (0 : ℕ) = infer_conversion_factor [some 2] ∧
      check_data_integrity [some 2]
        (convert_data_to_int32 [some 2] (some ((0 : ℕ) : ℚ)))
        ((0 : ℕ) : ℤ) = true :=
  ⟨rfl,
    (roundtrip_within_tolerance [some 2]
      (fun x hx => by
        simp only [List.mem_singleton] at hx
        subst hx
        simp)
      0 rfl
      (fun x hx q hq => by
        simp only [List.mem_singleton] at hx
        subst hx
        rw [Option.some.injEq] at hq
        subst hq
        unfold roundHalfEven int32_min int32_max
        norm_num)).2⟩

/-- C3: a `write_data` call rejected at the planning stage — effective
`end_uutc` earlier than `start_uutc`, or, on a channel already present in
the cache, `start_uutc` earlier than the channel's cached end time or a
sampling frequency differing from the cached one — returns the non-success
result `None`, dispatches no storage-engine call, and leaves the channel
metadata cache (the whole writer state) unchanged. -/
theorem write_data_rejected (st : WriterState) (data_write : List (Option ℚ))
    (channel : String) (start_uutc : ℤ) (sampling_freq : ℚ) (end_uutc : Option ℤ)
    (precision : Option ℚ) (new_segment discont_handler reload_metadata : Bool)
    (hrej :
      end_uutc.getD (derived_end start_uutc data_write.length sampling_freq) <
          start_uutc ∨
        ∃ info : ChanInfo, ∃ end_time : ℤ, ∃ fsamp : ℚ, ∃ n_segments : ℕ,
          lookupChan st channel = some info ∧
          info.end_time = some end_time ∧ info.fsamp = some fsamp ∧
          info.n_segments = some n_segments ∧
          (start_uutc < end_time ∨ sampling_freq ≠ fsamp)) :
    write_data st data_write channel start_uutc sampling_freq end_uutc precision
      new_segment discont_handler reload_metadata =
      (PyResult.ret none, [], st) := by
  unfold write_data
  cases end_uutc <;>
  · simp only [Option.getD_none, Option.getD_some] at hrej
    dsimp only
    rcases hrej with h1 | ⟨info, et, fsr, ns, hlook, het, hfs, hns, hor⟩
    · rw [if_pos h1]
    · split
      · rfl
      · rw [hlook]
        dsimp only
        rw [het, hfs, hns]
        dsimp only
        rcases hor with h2 | h2
        · rw [if_pos h2]
        · rcases lt_or_le start_uutc et with hlt | hle
          · rw [if_pos hlt]
          · rw [if_neg (not_lt.mpr hle), if_pos h2]

/-- Witness for C3 at the spec's Scenario C: channel `"X"` has cached
`end_time = 2000`; a second write at `start_uutc = 1500` is rejected with
no storage call and an unchanged cache. -/
theorem write_data_rejected_witness :
    ((some (2500 : ℤ)).getD (derived_end 1500 0 128) < 1500 ∨
        ∃ info : ChanInfo, ∃ end_time : ℤ, ∃ fsamp : ℚ, ∃ n_segments : ℕ,
          lookupChan demoState "X" = some info ∧
          info.end_time = some end_time ∧ info.fsamp = some fsamp ∧
          info.n_segments = some n_segments ∧
          ((1500 : ℤ) < end_time ∨ (128 : ℚ) ≠ fsamp)) ∧
      write_data demoState [] "X" 1500 128 (some 2500) none false false false =
        (PyResult.ret none, [], demoState) :=
  ⟨Or.inr ⟨⟨1280, 1, some 128, some 2000, some 1⟩, 2000, 128, 1, rfl, rfl, rfl, rfl,
      Or.inl (by decide)⟩,
    write_data_rejected demoState [] "X" 1500 128 (some 2500) none false false false
      (Or.inr ⟨⟨1280, 1, some 128, some 2000, some 1⟩, 2000, 128, 1, rfl, rfl, rfl, rfl,
        Or.inl (by decide)⟩)⟩

/-- C6: on a channel already present in the cache, the caller-supplied
`precision` argument has no effect: two `write_data` calls identical
except for `precision` return the same result, the same storage trace and
the same final state (the quantization precision is recovered from the
cached scale factor instead). -/
theorem write_data_ignores_precision (st : WriterState) (data_write : List (Option ℚ))
    (channel : String) (start_uutc : ℤ) (sampling_freq : ℚ) (end_uutc : Option ℤ)
    (p1 p2 : Option ℚ) (new_segment discont_handler reload_metadata : Bool)
    (info : ChanInfo) (hlook : lookupChan st channel = some info) :
    write_data st data_write channel start_uutc sampling_freq end_uutc p1
      new_segment discont_handler reload_metadata =
      write_data st data_write channel start_uutc sampling_freq end_uutc p2
        new_segment discont_handler reload_metadata := by
  unfold write_data
  cases end_uutc <;>
  · dsimp only
    rw [hlook]

/-- Witness for C6: on the cached channel `"X"`, writing with
`precision = 2` and with no precision give identical outcomes. -/
theorem write_data_ignores_precision_witness :
    lookupChan demoState "X" = some ⟨1280, 1, some 128, some 2000, some 1⟩ ∧
      write_data demoState [] "X" 3000 128 (some 3500) (some 2) false false false =
        write_data demoState [] "X" 3000 128 (some 3500) none false false false :=
  ⟨rfl,
    write_data_ignores_precision demoState [] "X" 3000 128 (some 3500)
      (some 2) none false false false ⟨1280, 1, some 128, some 2000, some 1⟩ rfl⟩

end MefTools
